import Mathlib

/-!
Verification development for two components of the repository:

* `packages/docutils/lib/fs.ts` — the mkdocs configuration loader
  (`readYaml`, `readMkDocsYml`): memoized file reads, `INHERIT`-chain
  resolution, `site_dir`/`docs_dir` path rewriting and the
  `_.defaultsDeep` (lodash 4.17.21) merge.

* the fake-driver element mixin (`getExistingElementForNode`,
  `wrapNewEl`, `findElOrEls`): identity-keyed element registry and
  strategy-based element lookup.

Parsed YAML documents are modelled by the mutual inductive family
`Yaml`/`YList`/`YMap`; JavaScript objects are association lists in
insertion order, arrays are lists.  Mutation of shared objects (the
caches of `_.memoize`) is made explicit by threading an `FsState`.
-/

set_option maxHeartbeats 1000000

namespace Appium

/-- First-match association-list lookup (JS property read on a plain object). -/
def alist {α : Type} : List (String × α) → String → Option α
  | [], _ => none
  | (k, v) :: rest, key => if k = key then some v else alist rest key

/-- Replace the value at a key (first occurrence), appending when absent
(JS property write on a plain object). -/
def aset {α : Type} : List (String × α) → String → α → List (String × α)
  | [], key, v => [(key, v)]
  | (k, w) :: rest, key, v =>
      if k = key then (k, v) :: rest else (k, w) :: aset rest key v

mutual

/-- A parsed YAML value as produced by `YAML.parse`: null, booleans,
numbers, strings, sequences and mappings (in document order). -/
inductive Yaml : Type where
  | nil : Yaml
  | bool : Bool → Yaml
  | num : Int → Yaml
  | str : String → Yaml
  | arr : YList → Yaml
  | map : YMap → Yaml

/-- A YAML sequence. -/
inductive YList : Type where
  | nil : YList
  | cons : Yaml → YList → YList

/-- A YAML mapping: key/value entries in document order. -/
inductive YMap : Type where
  | nil : YMap
  | cons : String → Yaml → YMap → YMap

end

/-- First-match lookup in a mapping (JS property read). -/
def YMap.find : YMap → String → Option Yaml
  | .nil, _ => none
  | .cons k v rest, key => if k = key then some v else rest.find key

/-- Replace the value at a key (first occurrence), appending when absent
(JS property write). -/
def YMap.set : YMap → String → Yaml → YMap
  | .nil, key, v => .cons key v .nil
  | .cons k w rest, key, v =>
      if k = key then .cons k v rest else .cons k w (rest.set key v)

/-- Concatenation of mapping entries. -/
def YMap.append : YMap → YMap → YMap
  | .nil, q => q
  | .cons k v rest, q => .cons k v (rest.append q)

/-- The keys of a mapping, in order. -/
def YMap.keys : YMap → List String
  | .nil => []
  | .cons k _ rest => k :: rest.keys

/-- Number of elements of a sequence. -/
def YList.length : YList → Nat
  | .nil => 0
  | .cons _ rest => 1 + rest.length

/-- Property read `doc[k]` as JavaScript sees a parsed YAML value: only
plain objects (mappings) have string-keyed own properties here. -/
def getKey : Yaml → String → Option Yaml
  | .map kvs, k => kvs.find k
  | _, _ => none

/-- Property write `doc[k] = v` on a mapping (used only when the key is
already present, mirroring the `site_dir`/`docs_dir` rewrites). -/
def setKey : Yaml → String → Yaml → Yaml
  | .map kvs, k, v => .map (kvs.set k v)
  | y, _, _ => y

/-- JavaScript truthiness of a parsed YAML value. -/
def truthy : Yaml → Bool
  | .nil => false
  | .bool b => b
  | .num n => n != 0
  | .str s => s ≠ ""
  | .arr _ => true
  | .map _ => true

/-- lodash `isObject`: arrays and plain objects (the only object-typed
values a parsed YAML document can hold). -/
def isObj : Yaml → Bool
  | .arr _ => true
  | .map _ => true
  | _ => false

def isMap : Yaml → Bool
  | .map _ => true
  | _ => false

/-- The document parsed to YAML `null` (an empty file): any property
access on it throws a `TypeError`. -/
def nilDoc : Yaml → Bool
  | .nil => true
  | _ => false

/-- Decimal digit to character. -/
def digitChar (d : Nat) : Char := Char.ofNat (48 + d)

/-- Decimal digits of `n` (most significant first); `fuel` bounds the
recursion and any `fuel > n` is exact. -/
def natChars : Nat → Nat → List Char
  | 0, _ => []
  | fuel + 1, n =>
      if n < 10 then [digitChar n]
      else natChars fuel (n / 10) ++ [digitChar (n % 10)]

/-- Decimal string of a natural number (JS `String(n)` / `toString`). -/
def natToStr (n : Nat) : String := String.mk (natChars (n + 1) n)

/-- Value of a list of decimal digit characters. -/
def digitsVal (cs : List Char) : Nat :=
  cs.foldl (fun a c => a * 10 + (c.toNat - 48)) 0

/-- A canonical decimal array-index string (`"0"`, `"1"`, …, no leading
zeros): JS array element access `xs[k]` hits an element exactly for such
keys. -/
def decIdx (k : String) : Option Nat :=
  match k.toList with
  | [] => none
  | c :: cs =>
      if (c :: cs).all (fun d => d.isDigit) ∧ (c = '0' → cs = []) then
        some (digitsVal (c :: cs))
      else none

/-- The index-keyed entries of a JS array, starting at index `i`:
arrays are objects whose own keys are the decimal index strings. -/
def indexed : Nat → YList → YMap
  | _, .nil => .nil
  | i, .cons v vs => .cons (natToStr i) v (indexed (i + 1) vs)

/-- The parent's entries whose keys are absent in the child (appended in
parent order by the merge). -/
def newEntries (c : YMap) : YMap → YMap
  | .nil => .nil
  | .cons k v rest =>
      if (c.find k).isNone then .cons k v (newEntries c rest) else newEntries c rest

mutual

/-- lodash 4.17.21 `_.defaultsDeep(child, parent)` (value semantics of the
mutated destination): for every key of the parent, a key absent in the
child is filled from the parent; a key present in both with object-typed
values on both sides (mappings or arrays) is merged recursively; otherwise
the child value is kept.  Arrays are objects keyed by decimal index
strings, so array/array merges element-wise (the parent's extra trailing
elements are appended), a mapping child merges an array parent through its
index keys, and an array child takes values from a mapping parent at its
in-range index keys.  (JS can also create sparse out-of-range index
properties on an array from a mapping parent with out-of-range decimal
keys; such holes are not representable here and those fills are dropped —
the decimal-map-key case is excluded by `wellKeyed` wherever a theorem
depends on it.  At the root of the merge lodash also iterates a string
parent's array-like index keys, filling its characters into the
accumulator; that non-mapping-parent case is not modelled and is excluded
by an `isMap` hypothesis on every chain document wherever a theorem
reaches a root merge.) -/
def defaultsDeep (c p : Yaml) : Yaml :=
  match c, p with
  | .map c, .map p => .map ((ddRow c p).append (newEntries c p))
  | .map c, .arr p => .map ((ddRow c (indexed 0 p)).append (newEntries c (indexed 0 p)))
  | .arr c, .arr p => .arr (ddArr c p)
  | .arr c, .map p => .arr (ddIdx 0 c p)
  | c, _ => c
  termination_by structural c

/-- The child's entries, each merged with the parent's value at the same
key when present. -/
def ddRow (c p : YMap) : YMap :=
  match c with
  | .nil => .nil
  | .cons k v rest =>
      .cons k
        (match p.find k with
         | some pv => defaultsDeep v pv
         | none => v)
        (ddRow rest p)
  termination_by structural c

/-- Element-wise array merge: child element wins (recursing when both are
objects); the parent's extra trailing elements are appended. -/
def ddArr (c p : YList) : YList :=
  match c, p with
  | .nil, p => p
  | .cons v vs, .nil => .cons v vs
  | .cons v vs, .cons pv pvs => .cons (defaultsDeep v pv) (ddArr vs pvs)
  termination_by structural c

/-- Array child against mapping parent: each in-range index key of the
parent contributes to the corresponding element. -/
def ddIdx (i : Nat) (c : YList) (p : YMap) : YList :=
  match c with
  | .nil => .nil
  | .cons v vs =>
      .cons
        (match p.find (natToStr i) with
         | some pv => defaultsDeep v pv
         | none => v)
        (ddIdx (i + 1) vs p)
  termination_by structural c

end

/-! ### POSIX path model (`node:path`: `dirname`, `resolve`) -/

/-- Scan of `path.posix.dirname`: walking the characters from the end
(indices `len-1 … 1`), skip trailing slashes, then return the index of the
last separator (Node's `end` variable). -/
def dnFind : List Char → Nat → Bool → Option Nat
  | [], _, _ => none
  | c :: rest, i, m =>
      if i = 0 then none
      else if c = '/' then (if m then dnFind rest (i - 1) m else some i)
      else dnFind rest (i - 1) false

/-- `path.posix.dirname`. -/
def dirname (p : String) : String :=
  let cs := p.toList
  if cs.isEmpty then "." else
  let hasRoot := cs.head? = some '/'
  match dnFind cs.reverse (cs.length - 1) true with
  | none => if hasRoot then "/" else "."
  | some e => if hasRoot ∧ e = 1 then "//" else String.mk (cs.take e)

/-- Split a character list at `/` (segments may be empty). -/
def splitSegs : List Char → List Char → List (List Char)
  | cur, [] => [cur.reverse]
  | cur, c :: cs => if c = '/' then cur.reverse :: splitSegs [] cs else splitSegs (c :: cur) cs

/-- Node's `normalizeString`: drop empty and `.` segments, resolve `..`
against the accumulated segments (kept above the root only for relative
results, i.e. when `allowAbove` is true). -/
def normSegs (allowAbove : Bool) : List (List Char) → List (List Char) → List (List Char)
  | acc, [] => acc.reverse
  | acc, s :: rest =>
      if s = [] ∨ s = ['.'] then normSegs allowAbove acc rest
      else if s = ['.', '.'] then
        match acc with
        | [] => if allowAbove then normSegs allowAbove [['.', '.']] rest
                else normSegs allowAbove [] rest
        | t :: acc2 =>
            if t = ['.', '.'] then normSegs allowAbove (['.', '.'] :: t :: acc2) rest
            else normSegs allowAbove acc2 rest
      else normSegs allowAbove (s :: acc) rest

/-- Join segments with `/`. -/
def joinSegs : List (List Char) → List Char
  | [] => []
  | [s] => s
  | s :: rest => s ++ '/' :: joinSegs rest

/-- `path.posix.isAbsolute`. -/
def isAbsPath (q : String) : Bool := q.toList.head? = some '/'

/-- `path.posix.resolve(...ps)` with `cwd` standing for `process.cwd()`
(consulted only when no argument is absolute): arguments are consumed
right to left until an absolute one is found, then the pieces are joined
and normalized. -/
def resolveParts (cwd : String) (ps : List String) : String :=
  let all := cwd :: ps
  let rev := all.reverse
  let pre := rev.takeWhile (fun q => ¬ isAbsPath q)
  let absPart := (rev.drop pre.length).head?
  let used := (match absPart with | some a => [a] | none => []) ++ pre.reverse
  let segs := (used.map (fun q => splitSegs [] q.toList)).flatten
  let isAbs := absPart.isSome
  let body := joinSegs (normSegs (!isAbs) [] segs)
  if isAbs then String.mk ('/' :: body)
  else if body.isEmpty then "." else String.mk body

/-! ### Filesystem state and the memoized readers

`_.memoize` caches the promise of an async function by its first
argument, so rejected results are cached exactly like resolved ones;
mutation of the cached objects (the `site_dir`/`docs_dir` rewrites and
the in-place `_.defaultsDeep` merge) is modelled by writing the updated
value back into the cache entry it aliases. -/

structure FsState where
  /-- Disk contents: path to the successfully read-and-parsed document
  (a missing entry is a failed `fs.readFile`/`YAML.parse`). -/
  files : List (String × Yaml)
  /-- `readYaml`'s memoization cache (`none` caches a rejection). -/
  yamlCache : List (String × Option Yaml)
  /-- `readMkDocsYml`'s memoization cache, keyed by `filepath` only. -/
  mkCache : List (String × Option Yaml)
  /-- Number of storage reads performed (`fs.readFile` calls). -/
  reads : Nat

def initFsState (files : List (String × Yaml)) : FsState := ⟨files, [], [], 0⟩

/-- `readYaml`: memoized read-and-parse. -/
def readYaml (p : String) (s : FsState) : Option Yaml × FsState :=
  match alist s.yamlCache p with
  | some r => (r, s)
  | none =>
      match alist s.files p with
      | some y => (some y, { s with yamlCache := (p, some y) :: s.yamlCache, reads := s.reads + 1 })
      | none => (none, { s with yamlCache := (p, none) :: s.yamlCache, reads := s.reads + 1 })

/-- Write back an in-place mutation of the object cached for `p`. -/
def setYamlCache (p : String) (y : Yaml) (s : FsState) : FsState :=
  { s with yamlCache := aset s.yamlCache p (some y) }

/-- Record `readMkDocsYml`'s memoized outcome for `p`. -/
def cacheMk (p : String) (r : Option Yaml) (s : FsState) : FsState :=
  { s with mkCache := (p, r) :: s.mkCache }

/-- The `if (doc.field) doc.field = path.resolve(...bases, doc.field)`
rewrite: the property access itself throws a `TypeError` when the
document parsed to YAML `null` (`doc.field` on `null`, fs.ts:247);
otherwise the rewrite is skipped when the field is absent or falsy, and
`none` also models the `TypeError` thrown by `path.resolve` on a truthy
non-string value. -/
def rewriteDir (cwd : String) (bases : List String) (field : String) (doc : Yaml) : Option Yaml :=
  if nilDoc doc then none
  else
  match getKey doc field with
  | some v =>
      if truthy v then
        match v with
        | .str t => some (setKey doc field (.str (resolveParts cwd (bases ++ [t]))))
        | _ => none
      else some doc
  | none => some doc

/-- The `while (inheritPath)` loop of `readMkDocsYml`: read the parent,
rewrite its `site_dir` and `docs_dir` against the parent's own directory,
deep-default-merge the accumulator against it, and follow its `INHERIT`.
`fuel` bounds the iterations: the outer `none` marks exhaustion (the
source has no cycle guard and would loop forever), the inner `none` a
rejected promise — in particular a parent that parses to YAML `null`
rejects through `rewriteDir`'s property-access `TypeError`, exactly as
the top-level document does.  Cache writes mirror the in-place mutations of the
objects aliased by `readYaml`'s cache (`ip` holds the rewritten parent,
`topPath` the accumulator). -/
def mkLoop (cwd topPath : String) : Nat → Yaml → String → FsState → Option (Option Yaml × FsState)
  | 0, _, _, _ => none
  | fuel + 1, acc, ip, s =>
      match readYaml ip s with
      | (none, s1) => some (none, s1)
      | (some iy, s1) =>
          match rewriteDir cwd [dirname ip] "site_dir" iy with
          | none => some (none, s1)
          | some iy1 =>
              let s2 := setYamlCache ip iy1 s1
              match rewriteDir cwd [dirname ip] "docs_dir" iy1 with
              | none => some (none, s2)
              | some iy2 =>
                  let s3 := setYamlCache ip iy2 s2
                  let acc2 := defaultsDeep acc iy2
                  let s4 := setYamlCache topPath acc2 s3
                  match getKey iy2 "INHERIT" with
                  | some v =>
                      if truthy v then
                        match v with
                        | .str t => mkLoop cwd topPath fuel acc2 (resolveParts cwd [dirname ip, t]) s4
                        | _ => some (none, s4)
                      else some (some acc2, s4)
                  | none => some (some acc2, s4)

/-- `readMkDocsYml(filepath, cwd)`: memoized by `filepath`; reads the
document, rewrites its `site_dir` (only) against
`resolve(cwd, dirname(filepath))`, then follows the `INHERIT` chain.
A `Yaml.nil` document models `YAML.parse` returning `null`, on which the
first property access throws. -/
def readMkDocsYml (fuel : Nat) (filepath : String) (cwd : String) (s : FsState) :
    Option (Option Yaml × FsState) :=
  match alist s.mkCache filepath with
  | some r => some (r, s)
  | none =>
      match readYaml filepath s with
      | (none, s1) => some (none, cacheMk filepath none s1)
      | (some d0, s1) =>
          match d0 with
          | .nil => some (none, cacheMk filepath none s1)
          | _ =>
            match rewriteDir cwd [cwd, dirname filepath] "site_dir" d0 with
            | none => some (none, cacheMk filepath none s1)
            | some d1 =>
                let s2 := setYamlCache filepath d1 s1
                match getKey d1 "INHERIT" with
                | some v =>
                    if truthy v then
                      match v with
                      | .str t =>
                          match mkLoop cwd filepath fuel d1
                              (resolveParts cwd [dirname filepath, t]) s2 with
                          | none => none
                          | some (none, s3) => some (none, cacheMk filepath none s3)
                          | some (some y, s3) => some (some y, cacheMk filepath (some y) s3)
                      | _ => some (none, cacheMk filepath none s2)
                    else some (some d1, cacheMk filepath (some d1) s2)
                | none => some (some d1, cacheMk filepath (some d1) s2)

/-! ### The fake-driver element registry and lookup -/

/-- `new FakeElement(obj, appModel)`: only the stored node identity is
relevant here; node identities are modelled as natural numbers compared
by equality (standing for JS reference identity `===`). -/
structure FakeElement where
  node : Nat
deriving DecidableEq

/-- The structural query model collaborator: four query methods, each
taking a selector and an optional context node and returning the matched
node identities. -/
structure AppModel where
  xpathQuery : String → Option Nat → List Nat
  idQuery : String → Option Nat → List Nat
  classQuery : String → Option Nat → List Nat
  cssQuery : String → Option Nat → List Nat

/-- The registry state owned by a `FakeDriver` instance.  `elMap` is a JS
object keyed by decimal id strings; since ids are assigned in increasing
numeric order, insertion order coincides with JS's ascending integer-key
iteration order. -/
structure FakeDriver where
  elMap : List (String × FakeElement)
  maxElId : Nat
  appModel : AppModel

/-- Linear scan of `_.toPairs(this.elMap)` for an entry holding `node`. -/
def findIdForNode : List (String × FakeElement) → Nat → Option String
  | [], _ => none
  | (i, el) :: rest, node => if el.node = node then some i else findIdForNode rest node

/-- `getExistingElementForNode`. -/
def getExistingElementForNode (node : Nat) (d : FakeDriver) : Option String :=
  findIdForNode d.elMap node

/-- `wrapNewEl`: return the existing id for an already-registered node
(`if (existingElId)` — an empty-string id would be falsy in JS, hence the
explicit test), otherwise increment the counter and register the node
under the stringified counter. -/
def wrapNewEl (obj : Nat) (d : FakeDriver) : String × FakeDriver :=
  let alloc : String × FakeDriver :=
    (natToStr (d.maxElId + 1),
     { d with maxElId := d.maxElId + 1,
              elMap := aset d.elMap (natToStr (d.maxElId + 1)) ⟨obj⟩ })
  match getExistingElementForNode obj d with
  | some existingElId => if existingElId = "" then alloc else (existingElId, d)
  | none => alloc

/-- The three underlying query kinds of the `qMap` table. -/
inductive QueryKind
  | xpathQuery | idQuery | classQuery | cssQuery
deriving DecidableEq

/-- The `qMap` strategy table of `findElOrEls` (several strategies alias
one query kind); `none` models `!_.includes(_.keys(qMap), strategy)`. -/
def qMap (strategy : String) : Option QueryKind :=
  if strategy = "xpath" then some .xpathQuery
  else if strategy = "id" then some .idQuery
  else if strategy = "accessibility id" then some .idQuery
  else if strategy = "class name" then some .classQuery
  else if strategy = "tag name" then some .classQuery
  else if strategy = "css selector" then some .cssQuery
  else none

/-- `this.appModel[qMap[strategy]](selector, context)`. -/
def runQuery (m : AppModel) : QueryKind → String → Option Nat → List Nat
  | .xpathQuery => m.xpathQuery
  | .idQuery => m.idQuery
  | .classQuery => m.classQuery
  | .cssQuery => m.cssQuery

/-- The typed errors thrown by `findElOrEls`. -/
inductive FindErr
  | unknownCommand | invalidSelector | noSuchElement
deriving DecidableEq

/-- A single wrapped element reference or a sequence of them (the
`{ELEMENT: id}` records, reduced to their ids). -/
inductive ElResult where
  | one : String → ElResult
  | many : List String → ElResult
deriving DecidableEq

/-- Wrap every matched node in order, threading the registry. -/
def wrapAll : List Nat → FakeDriver → List String × FakeDriver
  | [], d => ([], d)
  | n :: ns, d =>
      let r1 := wrapNewEl n d
      let r2 := wrapAll ns r1.2
      (r1.1 :: r2.1, r2.2)

/-- `findElOrEls(strategy, selector, mult, context)`. -/
def findElOrEls (strategy selector : String) (mult : Bool) (context : Option Nat)
    (d : FakeDriver) : Except FindErr ElResult × FakeDriver :=
  match qMap strategy with
  | none => (.error .unknownCommand, d)
  | some k =>
      if selector = "badsel" then (.error .invalidSelector, d)
      else
        match runQuery d.appModel k selector context with
        | [] => if mult then (.ok (.many []), d) else (.error .noSuchElement, d)
        | e :: rest =>
            if mult then
              let r := wrapAll (e :: rest) d
              (.ok (.many r.1), r.2)
            else
              let r := wrapNewEl e d
              (.ok (.one r.1), r.2)

/-! ### Derived notions used by the specification theorems -/

/-- One JS property-access step on a parsed YAML value: mapping entries by
key, array elements by canonical decimal index key. -/
def step (y : Yaml) (k : String) : Option Yaml :=
  match y with
  | .map kvs => kvs.find k
  | .arr xs => (indexed 0 xs).find k
  | _ => none

/-- Value of a document at a key path (descending through mappings by key
and through arrays by decimal index key). -/
def getPath : Yaml → List String → Option Yaml
  | y, [] => some y
  | y, k :: rest =>
      match step y k with
      | some v => getPath v rest
      | none => none

/-- A non-object (non-mergeable) value: null, boolean, number or string. -/
def Scalar (y : Yaml) : Prop := isObj y = false

mutual

/-- No mapping anywhere in the document uses a canonical decimal array
index string as a key (rules out lodash's sparse-array fills, which this
model does not represent). -/
def wellKeyed : Yaml → Bool
  | .map kvs => wkRow kvs
  | .arr xs => wkArr xs
  | _ => true
  termination_by structural y => y

def wkRow : YMap → Bool
  | .nil => true
  | .cons k v rest => (decIdx k).isNone && wellKeyed v && wkRow rest
  termination_by structural m => m

def wkArr : YList → Bool
  | .nil => true
  | .cons v vs => wellKeyed v && wkArr vs
  termination_by structural l => l

end

/-- A step that can never produce a value, whatever is merged in later:
a scalar has no properties, and an array never gains non-index keys
(index keys excluded by `wellKeyed` hypotheses). -/
def BlockStep (w : Yaml) (k : String) : Prop :=
  isObj w = false ∨ (∃ xs, w = .arr xs ∧ decIdx k = none)

/-- The path `ks` is dead in `a`: some proper prefix of `ks` holds a value
through which the next step is permanently blocked. -/
def DeadA (a : Yaml) (ks : List String) : Prop :=
  ∃ q k r, ks = q ++ k :: r ∧ ∃ w, getPath a q = some w ∧ BlockStep w k

/-- The path `ks` is absent from `a` but open: every proper prefix of `ks`
holds a mapping (or nothing), and `ks` itself holds nothing — a parent
value at `ks` survives the deep-default merge. -/
def pathClear (a : Yaml) (ks : List String) : Prop :=
  getPath a ks = none ∧
  ∀ q k r, ks = q ++ k :: r → ∀ w, getPath a q = some w → isMap w = true

/-- A truthy `site_dir`/`docs_dir`/`INHERIT`-style field is a string
(otherwise `path.resolve` throws a `TypeError`). -/
def fieldOk (d : Yaml) (field : String) : Bool :=
  match getKey d field with
  | some v => !truthy v || (match v with | .str _ => true | _ => false)
  | none => true

/-- Both directory fields of a document are usable by the rewrite. -/
def dirsOk (d : Yaml) : Bool := fieldOk d "site_dir" && fieldOk d "docs_dir"

/-- The document ends the inheritance chain: no truthy `INHERIT`. -/
def inheritLast (d : Yaml) : Bool :=
  match getKey d "INHERIT" with
  | some v => !truthy v
  | none => true

/-- The `if (doc.f) doc.f = resolve(dirname(docpath), doc.f)` rewrite of
one field of an inherited document, as a total function (the `TypeError`
case is excluded by `dirsOk` wherever this is used). -/
def rw1 (cwd q field : String) (d : Yaml) : Yaml :=
  match getKey d field with
  | some (.str t) =>
      if t = "" then d else setKey d field (.str (resolveParts cwd [dirname q, t]))
  | _ => d

/-- An inherited document after its `site_dir` and `docs_dir` rewrites
against its own directory. -/
def absD (cwd q : String) (d : Yaml) : Yaml := rw1 cwd q "docs_dir" (rw1 cwd q "site_dir" d)

/-- The top-level document after its `site_dir` rewrite against
`resolve(cwd, dirname(filepath))` (its `docs_dir` is not rewritten). -/
def rwTop (cwd p : String) (d : Yaml) : Yaml :=
  match getKey d "site_dir" with
  | some (.str t) =>
      if t = "" then d
      else setKey d "site_dir" (.str (resolveParts cwd [cwd, dirname p, t]))
  | _ => d

/-- The `INHERIT` chain below a starting resolved path: each listed
document is on disk at its path, has usable directory fields, and either
ends the chain or names the next hop, resolved against its own directory.
A cycle admits no such finite derivation, so a `Chain` hypothesis is
exactly the claim's "no path is visited twice" premise (distinctness is
still stated separately where needed). -/
inductive Chain (files : List (String × Yaml)) (cwd : String) : String → List (String × Yaml) → Prop
  | last : ∀ ip d, alist files ip = some d → dirsOk d = true → inheritLast d = true →
      Chain files cwd ip [(ip, d)]
  | step : ∀ ip d t rest, alist files ip = some d → dirsOk d = true →
      getKey d "INHERIT" = some (.str t) → t ≠ "" →
      Chain files cwd (resolveParts cwd [dirname ip, t]) rest →
      Chain files cwd ip ((ip, d) :: rest)

/-- The denotation of the merge loop over a chain: fold the accumulator
through the rewritten documents. -/
def foldChain (cwd : String) (acc : Yaml) (docs : List (String × Yaml)) : Yaml :=
  docs.foldl (fun a pr => defaultsDeep a (absD cwd pr.1 pr.2)) acc

/-- A query model returning no matches (used by concrete instances). -/
def noopModel : AppModel :=
  ⟨fun _ _ => [], fun _ _ => [], fun _ _ => [], fun _ _ => []⟩

/-- The registry of a freshly constructed driver: empty map, counter 0. -/
def emptyDriver : FakeDriver := ⟨[], 0, noopModel⟩

/-- The registry invariant: distinct ids, distinct node identities, and
every id is the decimal string of some counter value in `1 … maxElId`. -/
def ValidReg (d : FakeDriver) : Prop :=
  (d.elMap.map Prod.fst).Nodup ∧
  (d.elMap.map (fun pr => pr.2.node)).Nodup ∧
  (∀ pr ∈ d.elMap, ∃ n, 1 ≤ n ∧ n ≤ d.maxElId ∧ pr.1 = natToStr n)

/-- The six recognized strategies, in the order of the `qMap` literal. -/
def strategies : List String :=
  ["xpath", "id", "accessibility id", "class name", "tag name", "css selector"]

/-- Concrete two-document inheritance chain of the specification's
example: `child.yml = {a: 1, INHERIT: '../parent.yml'}` in `/d`,
`parent.yml = {a: 2, b: 3}` at the root. -/
def exChildDoc : Yaml := .map (.cons "a" (.num 1) (.cons "INHERIT" (.str "../parent.yml") .nil))

def exParentDoc : Yaml := .map (.cons "a" (.num 2) (.cons "b" (.num 3) .nil))

def exFiles : List (String × Yaml) :=
  [("/d/child.yml", exChildDoc), ("/parent.yml", exParentDoc)]

/-- What `load('child.yml')` actually returns on the example: `a` from the
child, the child's own `INHERIT` key (never stripped), and `b` filled from
the parent. -/
def exMerged : Yaml :=
  .map (.cons "a" (.num 1) (.cons "INHERIT" (.str "../parent.yml") (.cons "b" (.num 3) .nil)))

/-- The state after `load('/d/child.yml')` on the example: both documents
read once, the cache holding the merged child and the (here unchanged)
parent, and the memoized result. -/
def exS1 : FsState :=
  { files := exFiles,
    yamlCache := [("/parent.yml", some exParentDoc), ("/d/child.yml", some exMerged)],
    mkCache := [("/d/child.yml", some exMerged)],
    reads := 2 }

/-- Element access of a sequence by numeric index. -/
def YList.get : YList → Nat → Option Yaml
  | .nil, _ => none
  | .cons v _, 0 => some v
  | .cons _ vs, n + 1 => vs.get n

/-- Concrete chain for the array-merge behaviour: the child holds `[1]`
and the parent `[2, 3]` at the same key. -/
def exArrChild : Yaml :=
  .map (.cons "xs" (.arr (.cons (.num 1) .nil))
    (.cons "INHERIT" (.str "../p.yml") .nil))

def exArrParent : Yaml :=
  .map (.cons "xs" (.arr (.cons (.num 2) (.cons (.num 3) .nil))) .nil)

def exArrFiles : List (String × Yaml) :=
  [("/d/c.yml", exArrChild), ("/p.yml", exArrParent)]

/-- A single document declaring a relative `docs_dir` and no `INHERIT`. -/
def exDirFiles : List (String × Yaml) :=
  [("/proj/mkdocs.yml", .map (.cons "docs_dir" (.str "docs") .nil))]

/-- A chain whose child and parent both declare relative directory
fields. -/
def exDir2Child : Yaml :=
  .map (.cons "site_dir" (.str "site") (.cons "docs_dir" (.str "docsrel")
    (.cons "INHERIT" (.str "../par.yml") .nil)))

def exDir2Parent : Yaml :=
  .map (.cons "site_dir" (.str "ps") (.cons "docs_dir" (.str "pd") .nil))

def exDir2Files : List (String × Yaml) :=
  [("/d/c2.yml", exDir2Child), ("/par.yml", exDir2Parent)]

/-- A chain whose inherited parent parses to YAML `null` (an empty
parent file): the loop's `inheritYml.site_dir` access throws. -/
def exNilFiles : List (String × Yaml) :=
  [("/d/child.yml", exChildDoc), ("/parent.yml", .nil)]

/-! ## Lemmas: decimal id strings -/

theorem digitChar_isDigit {d : Nat} (h : d < 10) : (digitChar d).isDigit = true := by
  interval_cases d <;> decide

theorem digitChar_toNat {d : Nat} (h : d < 10) : (digitChar d).toNat = 48 + d := by
  interval_cases d <;> decide

theorem digitsVal_append_one (cs : List Char) (c : Char) :
    digitsVal (cs ++ [c]) = digitsVal cs * 10 + (c.toNat - 48) := by
  simp [digitsVal, List.foldl_append]

/-- Shape and value of `natChars`: with enough fuel it is a nonempty
all-digit list with no leading zero (except `"0"` itself) whose decimal
value is `n`. -/
theorem natChars_spec :
    ∀ fuel n, n < fuel →
      natChars fuel n ≠ [] ∧
      (natChars fuel n).all (fun d => d.isDigit) = true ∧
      (∀ cs, natChars fuel n = '0' :: cs → cs = [] ∧ n = 0) ∧
      digitsVal (natChars fuel n) = n := by
  intro fuel
  induction fuel with
  | zero => intro n h; omega
  | succ f ih =>
      intro n h
      by_cases hn : n < 10
      · refine ⟨by simp [natChars, hn], by simp [natChars, hn, digitChar_isDigit hn], ?_, ?_⟩
        · intro cs hcs
          simp only [natChars, if_pos hn] at hcs
          have hd : digitChar n = '0' ∧ cs = [] := by
            constructor
            · exact (List.cons.injEq _ _ _ _ ▸ hcs).1
            · exact (List.cons.injEq _ _ _ _ ▸ hcs).2.symm ▸ rfl
          have : n = 0 := by
            have := hd.1
            interval_cases n <;> simp_all [digitChar]
          exact ⟨hd.2, this⟩
        · simp only [natChars, if_pos hn]
          have := digitChar_toNat hn
          simp [digitsVal, this]
      · have hlt : n / 10 < f := by omega
        obtain ⟨hne, hdig, hzero, hval⟩ := ih (n / 10) hlt
        have hm : n % 10 < 10 := Nat.mod_lt _ (by norm_num)
        simp only [natChars, if_neg hn]
        refine ⟨by simp, ?_, ?_, ?_⟩
        · simp only [List.all_append, List.all_cons, List.all_nil]
          simp [hdig, digitChar_isDigit hm]
        · intro cs hcs
          match hmk : natChars f (n / 10) with
          | [] => exact absurd hmk hne
          | c0 :: rest =>
              rw [hmk] at hcs
              simp only [List.cons_append, List.cons.injEq] at hcs
              have h0 : c0 = '0' := hcs.1
              obtain ⟨-, hz⟩ := hzero (rest) (by rw [hmk, h0])
              omega
        · rw [digitsVal_append_one, hval, digitChar_toNat hm]
          omega

theorem natToStr_toList (n : Nat) : (natToStr n).toList = natChars (n + 1) n := rfl

/-- `decIdx` inverts `natToStr`: decimal id strings are canonical index keys. -/
theorem decIdx_natToStr (n : Nat) : decIdx (natToStr n) = some n := by
  obtain ⟨hne, hdig, hzero, hval⟩ := natChars_spec (n + 1) n (by omega)
  unfold decIdx
  rw [natToStr_toList]
  match hmk : natChars (n + 1) n with
  | [] => exact absurd hmk hne
  | c :: cs =>
      rw [hmk] at hdig hval
      have hcond : (c :: cs).all (fun d => d.isDigit) = true ∧ (c = '0' → cs = []) := by
        refine ⟨hdig, fun hc => ?_⟩
        exact (hzero cs (by rw [hmk, hc])).1
      show (if (c :: cs).all (fun d => d.isDigit) = true ∧ (c = '0' → cs = []) then
              some (digitsVal (c :: cs)) else none) = some n
      rw [if_pos hcond, hval]

theorem natToStr_injective {m n : Nat} (h : natToStr m = natToStr n) : m = n := by
  have hm := decIdx_natToStr m
  have hn := decIdx_natToStr n
  rw [h, hn] at hm
  exact (Option.some.injEq _ _ ▸ hm).symm

theorem natToStr_ne_empty (n : Nat) : natToStr n ≠ "" := by
  obtain ⟨hne, -, -, -⟩ := natChars_spec (n + 1) n (by omega)
  intro h
  have : (natToStr n).toList = ("" : String).toList := by rw [h]
  rw [natToStr_toList] at this
  simp only [String.toList] at this
  exact hne (by simpa using this)

/-! ## Lemmas: the element registry -/

theorem findIdForNode_none {l : List (String × FakeElement)} {node : Nat} :
    findIdForNode l node = none ↔ ∀ pr ∈ l, pr.2.node ≠ node := by
  induction l with
  | nil => simp [findIdForNode]
  | cons hd tl ih =>
      obtain ⟨j, el⟩ := hd
      by_cases h : el.node = node
      · simp [findIdForNode, h]
      · simp [findIdForNode, h, ih]

theorem findIdForNode_mem {l : List (String × FakeElement)} {node : Nat} {i : String}
    (h : findIdForNode l node = some i) : ∃ el, (i, el) ∈ l ∧ el.node = node := by
  induction l with
  | nil => simp [findIdForNode] at h
  | cons hd tl ih =>
      obtain ⟨j, el⟩ := hd
      by_cases hn : el.node = node
      · simp only [findIdForNode, if_pos hn, Option.some.injEq] at h
        exact ⟨el, by simp [h], hn⟩
      · simp only [findIdForNode, if_neg hn] at h
        obtain ⟨el2, hmem, hn2⟩ := ih h
        exact ⟨el2, by simp [hmem], hn2⟩

theorem findIdForNode_append_of_none {l m : List (String × FakeElement)} {node : Nat}
    (h : findIdForNode l node = none) :
    findIdForNode (l ++ m) node = findIdForNode m node := by
  induction l with
  | nil => simp
  | cons hd tl ih =>
      obtain ⟨j, el⟩ := hd
      by_cases hn : el.node = node
      · simp [findIdForNode, hn] at h
      · simp only [findIdForNode, if_neg hn] at h ⊢
        exact ih h

theorem aset_append_of_fresh {α : Type} {l : List (String × α)} {k : String} {v : α}
    (h : ∀ pr ∈ l, pr.1 ≠ k) : aset l k v = l ++ [(k, v)] := by
  induction l with
  | nil => simp [aset]
  | cons hd tl ih =>
      obtain ⟨j, w⟩ := hd
      have hj : j ≠ k := h (j, w) (by simp)
      simp only [aset, if_neg hj, List.cons_append, List.cons.injEq, true_and]
      exact ih (fun pr hpr => h pr (by simp [hpr]))

theorem alist_append_left {α : Type} {l m : List (String × α)} {k : String} {v : α}
    (h : alist l k = some v) : alist (l ++ m) k = some v := by
  induction l with
  | nil => simp [alist] at h
  | cons hd tl ih =>
      obtain ⟨j, w⟩ := hd
      by_cases hj : j = k
      · simp only [alist, if_pos hj] at h ⊢; exact h
      · simp only [alist, if_neg hj] at h ⊢; exact ih h

theorem key_unique {l : List (String × FakeElement)} (h : (l.map Prod.fst).Nodup)
    {i : String} {x y : FakeElement} (hx : (i, x) ∈ l) (hy : (i, y) ∈ l) : x = y := by
  induction l with
  | nil => simp at hx
  | cons hd tl ih =>
      obtain ⟨j, w⟩ := hd
      simp only [List.map_cons, List.nodup_cons] at h
      rcases List.mem_cons.mp hx with hx1 | hx2 <;> rcases List.mem_cons.mp hy with hy1 | hy2
      · simp only [Prod.mk.injEq] at hx1 hy1
        rw [hx1.2, hy1.2]
      · simp only [Prod.mk.injEq] at hx1
        exact absurd (hx1.1 ▸ List.mem_map_of_mem Prod.fst hy2) h.1
      · simp only [Prod.mk.injEq] at hy1
        exact absurd (hy1.1 ▸ List.mem_map_of_mem Prod.fst hx2) h.1
      · exact ih h.2 hx2 hy2

theorem validReg_fresh_id {d : FakeDriver} (h : ValidReg d) :
    ∀ pr ∈ d.elMap, pr.1 ≠ natToStr (d.maxElId + 1) := by
  intro pr hpr heq
  obtain ⟨n, h1, h2, h3⟩ := h.2.2 pr hpr
  rw [h3] at heq
  have := natToStr_injective heq
  omega

theorem validReg_id_nonempty {d : FakeDriver} (h : ValidReg d) :
    ∀ pr ∈ d.elMap, pr.1 ≠ "" := by
  intro pr hpr heq
  obtain ⟨n, -, -, h3⟩ := h.2.2 pr hpr
  rw [h3] at heq
  exact natToStr_ne_empty n heq

/-- Unfolding of `wrapNewEl` in the registration (miss) case. -/
theorem wrapNewEl_miss {d : FakeDriver} {a : Nat}
    (hvalid : ValidReg d) (hmiss : getExistingElementForNode a d = none) :
    wrapNewEl a d =
      (natToStr (d.maxElId + 1),
       { d with maxElId := d.maxElId + 1,
                elMap := d.elMap ++ [(natToStr (d.maxElId + 1), ⟨a⟩)] }) := by
  unfold wrapNewEl
  rw [hmiss]
  rw [aset_append_of_fresh (validReg_fresh_id hvalid)]

/-- Unfolding of `wrapNewEl` in the hit case. -/
theorem wrapNewEl_hit {d : FakeDriver} {a : Nat} {i : String}
    (hvalid : ValidReg d) (hhit : getExistingElementForNode a d = some i) :
    wrapNewEl a d = (i, d) := by
  unfold wrapNewEl
  rw [hhit]
  obtain ⟨el, hmem, -⟩ := findIdForNode_mem hhit
  have : i ≠ "" := validReg_id_nonempty hvalid (i, el) hmem
  simp [this]

/-- `wrapNewEl` preserves the registry invariant. -/
theorem wrapNewEl_preserves {d : FakeDriver} (hvalid : ValidReg d) (a : Nat) :
    ValidReg (wrapNewEl a d).2 := by
  match hres : getExistingElementForNode a d with
  | some i => rw [wrapNewEl_hit hvalid hres]; exact hvalid
  | none =>
      rw [wrapNewEl_miss hvalid hres]
      obtain ⟨hids, hnodes, hrange⟩ := hvalid
      refine ⟨?_, ?_, ?_⟩
      · simp only [List.map_append, List.map_cons, List.map_nil]
        rw [List.nodup_append]
        refine ⟨hids, by simp, ?_⟩
        intro x hx
        simp only [List.mem_map] at hx
        obtain ⟨pr, hpr, hpx⟩ := hx
        have := validReg_fresh_id ⟨hids, hnodes, hrange⟩ pr hpr
        simp only [List.mem_singleton]
        rw [← hpx]
        intro hcon
        exact this hcon
      · simp only [List.map_append, List.map_cons, List.map_nil]
        rw [List.nodup_append]
        refine ⟨hnodes, by simp, ?_⟩
        intro x hx
        simp only [List.mem_map] at hx
        obtain ⟨pr, hpr, hpx⟩ := hx
        have hne : pr.2.node ≠ a := (findIdForNode_none.mp hres) pr hpr
        simp only [List.mem_singleton]
        rw [← hpx]
        exact fun hcon => hne hcon
      · intro pr hpr
        rcases List.mem_append.mp hpr with hl | hr
        · obtain ⟨n, h1, h2, h3⟩ := hrange pr hl
          exact ⟨n, h1, by simp; omega, h3⟩
        · simp only [List.mem_singleton] at hr
          exact ⟨d.maxElId + 1, by omega, by simp, by rw [hr]⟩

/-- **C3.** In the element registry, `lookupOrRegister` (`wrapNewEl` backed
by `getExistingElementForNode`) returns equal ids exactly for
identity-equal nodes: a second lookup of the same node returns the same id
and leaves the registry unchanged; lookups of nodes with distinct
identities return distinct ids; and an id, once assigned, keeps its entry
forever. -/
theorem claim_C3 (d : FakeDriver) (hvalid : ValidReg d) (a b : Nat) :
    ((wrapNewEl a (wrapNewEl a d).2).1 = (wrapNewEl a d).1 ∧
     (wrapNewEl a (wrapNewEl a d).2).2 = (wrapNewEl a d).2) ∧
    (a ≠ b → (wrapNewEl b (wrapNewEl a d).2).1 ≠ (wrapNewEl a d).1) ∧
    (∀ i el, alist d.elMap i = some el → alist (wrapNewEl a d).2.elMap i = some el) := by
  have hstep : ∀ x : Nat, ∀ d2 : FakeDriver, ValidReg d2 →
      ∃ i2, wrapNewEl x d2 = (i2, (wrapNewEl x d2).2) ∧
        findIdForNode (wrapNewEl x d2).2.elMap x = some i2 := by
    intro x d2 hv2
    match hres : getExistingElementForNode x d2 with
    | some i =>
        rw [wrapNewEl_hit hv2 hres]
        exact ⟨i, rfl, hres⟩
    | none =>
        rw [wrapNewEl_miss hv2 hres]
        refine ⟨natToStr (d2.maxElId + 1), rfl, ?_⟩
        simp only
        rw [findIdForNode_append_of_none hres]
        simp [findIdForNode]
  refine ⟨?_, ?_, ?_⟩
  · -- idempotence: the second call finds the entry created (or found) by the first
    obtain ⟨i1, heq1, hfind1⟩ := hstep a d hvalid
    have hv1 : ValidReg (wrapNewEl a d).2 := wrapNewEl_preserves hvalid a
    have hhit : getExistingElementForNode a (wrapNewEl a d).2 = some i1 := hfind1
    rw [wrapNewEl_hit hv1 hhit]
    constructor
    · rw [heq1]
    · rfl
  · -- distinct nodes receive distinct ids
    intro hab hcon
    obtain ⟨i1, heq1, hfind1⟩ := hstep a d hvalid
    have hv1 : ValidReg (wrapNewEl a d).2 := wrapNewEl_preserves hvalid a
    have e1 : (wrapNewEl a d).1 = i1 := by rw [heq1]
    obtain ⟨el1, hmem1, hnode1⟩ := findIdForNode_mem hfind1
    match hres : getExistingElementForNode b (wrapNewEl a d).2 with
    | some j =>
        -- the second lookup hits an entry holding node b; equal ids would
        -- force that entry to coincide with the one holding node a
        have hj : (wrapNewEl b (wrapNewEl a d).2).1 = j := by
          rw [wrapNewEl_hit hv1 hres]
        rw [hj, e1] at hcon
        obtain ⟨el2, hmem2, hnode2⟩ := findIdForNode_mem hres
        rw [hcon] at hmem2
        have heq := key_unique hv1.1 hmem1 hmem2
        rw [← heq] at hnode2
        rw [hnode1] at hnode2
        exact hab hnode2
    | none =>
        -- the second lookup allocates a fresh id, distinct from every
        -- id already present, in particular from i1
        have hj : (wrapNewEl b (wrapNewEl a d).2).1 =
            natToStr ((wrapNewEl a d).2.maxElId + 1) := by
          rw [wrapNewEl_miss hv1 hres]
        rw [hj, e1] at hcon
        exact validReg_fresh_id hv1 (i1, el1) hmem1 hcon.symm
  · -- entries are never reassigned
    intro i el hmem
    match hres : getExistingElementForNode a d with
    | some j => rw [wrapNewEl_hit hvalid hres]; exact hmem
    | none =>
        rw [wrapNewEl_miss hvalid hres]
        simp only
        exact alist_append_left hmem

theorem validReg_empty : ValidReg emptyDriver := by
  refine ⟨by simp [emptyDriver], by simp [emptyDriver], ?_⟩
  intro pr hpr
  simp [emptyDriver] at hpr

/-- Witness for C3 at a concrete registry: two distinct fresh nodes get
distinct ids. -/
theorem claim_C3_witness :
    (wrapNewEl 7 (wrapNewEl 5 emptyDriver).2).1 ≠ (wrapNewEl 5 emptyDriver).1 :=
  (claim_C3 emptyDriver validReg_empty 5 7).2.1 (by decide)

/-- **C9.** Registry ids are the decimal strings of the counter `maxElId`
(started at 0, incremented before each assignment): a fresh node is
registered under `toString (maxElId + 1)` with the counter incremented;
the first id ever assigned is `"1"`; the new id is absent from the map
and numerically exceeds every previously assigned id. -/
theorem claim_C9 (d : FakeDriver) (hvalid : ValidReg d) (a : Nat)
    (hmiss : getExistingElementForNode a d = none) :
    (wrapNewEl a d).1 = natToStr (d.maxElId + 1) ∧
    (wrapNewEl a d).2.maxElId = d.maxElId + 1 ∧
    (∀ (m : AppModel) (x : Nat), (wrapNewEl x ⟨[], 0, m⟩).1 = "1") ∧
    (wrapNewEl a d).1 ∉ d.elMap.map Prod.fst ∧
    (∀ pr ∈ d.elMap, ∃ n, n < d.maxElId + 1 ∧ pr.1 = natToStr n) := by
  have hm := wrapNewEl_miss hvalid hmiss
  refine ⟨by rw [hm], by rw [hm], ?_, ?_, ?_⟩
  · intro m x; rfl
  · rw [hm]
    intro hmem
    obtain ⟨pr, hpr, hfst⟩ := List.mem_map.mp hmem
    exact validReg_fresh_id hvalid pr hpr hfst
  · intro pr hpr
    obtain ⟨n, -, h2, h3⟩ := hvalid.2.2 pr hpr
    exact ⟨n, by omega, h3⟩

/-- Witness for C9 at a concrete registry: registering node 5 in a fresh
registry assigns id `"1"` and bumps the counter to 1. -/
theorem claim_C9_witness :
    (wrapNewEl 5 emptyDriver).1 = natToStr 1 ∧
    (wrapNewEl 5 emptyDriver).2.maxElId = 1 := by
  have h := claim_C9 emptyDriver validReg_empty 5 (by rfl)
  exact ⟨h.1, h.2.1⟩

/-! ## Lemmas: `findElOrEls` -/

theorem qMap_none_iff (s : String) : qMap s = none ↔ s ∉ strategies := by
  unfold qMap strategies
  split_ifs with h1 h2 h3 h4 h5 h6 <;> simp_all

theorem qMap_some_of_mem {s : String} (h : s ∈ strategies) : ∃ k, qMap s = some k := by
  match hq : qMap s with
  | some k => exact ⟨k, rfl⟩
  | none => exact absurd ((qMap_none_iff s).mp hq) (by simp [h])

/-- **C7.** `findElOrEls` fails with `UnknownCommandError` for every
strategy outside the six recognized values, and with
`InvalidSelectorError` for every recognized strategy given the literal
sentinel selector `"badsel"`; in both cases the driver (and so the
registry) is returned unchanged. -/
theorem claim_C7 (strategy selector : String) (mult : Bool) (context : Option Nat)
    (d : FakeDriver) :
    (strategy ∉ strategies →
      findElOrEls strategy selector mult context d = (.error .unknownCommand, d)) ∧
    (strategy ∈ strategies →
      findElOrEls strategy "badsel" mult context d = (.error .invalidSelector, d)) := by
  constructor
  · intro hout
    have hnone : qMap strategy = none := (qMap_none_iff strategy).mpr hout
    unfold findElOrEls
    rw [hnone]
  · intro hin
    obtain ⟨k, hk⟩ := qMap_some_of_mem hin
    unfold findElOrEls
    rw [hk]
    simp

/-- Witness for C7: a bogus strategy is rejected, and a recognized
strategy with the sentinel selector is rejected, both without touching
the registry. -/
theorem claim_C7_witness :
    findElOrEls "bogus-strategy" "x" false none emptyDriver
      = (.error .unknownCommand, emptyDriver) ∧
    findElOrEls "id" "badsel" false none emptyDriver
      = (.error .invalidSelector, emptyDriver) :=
  ⟨(claim_C7 "bogus-strategy" "x" false none emptyDriver).1 (by decide),
   (claim_C7 "id" "badsel" false none emptyDriver).2 (by decide)⟩

/-- **C8.** With a recognized strategy, a non-sentinel selector and a
model query yielding zero matches, `findElOrEls` returns an empty
sequence when `mult` is true and fails with `NoSuchElementError` when
`mult` is false; in both cases the driver (and so the registry) is
returned unchanged. -/
theorem claim_C8 (strategy selector : String) (context : Option Nat) (d : FakeDriver)
    (k : QueryKind) (hk : qMap strategy = some k) (hsel : selector ≠ "badsel")
    (hq : runQuery d.appModel k selector context = []) :
    findElOrEls strategy selector true context d = (.ok (.many []), d) ∧
    findElOrEls strategy selector false context d = (.error .noSuchElement, d) := by
  constructor <;>
    · unfold findElOrEls
      rw [hk]
      simp [hsel, hq]

/-- Witness for C8: an `id` query for a missing selector against an
empty model. -/
theorem claim_C8_witness :
    findElOrEls "id" "missing" true none emptyDriver = (.ok (.many []), emptyDriver) ∧
    findElOrEls "id" "missing" false none emptyDriver = (.error .noSuchElement, emptyDriver) :=
  claim_C8 "id" "missing" none emptyDriver .idQuery (by decide) (by decide) (by rfl)

/-! ## Lemmas: mapping lookups under the merge -/

theorem find_set_eq : ∀ (m : YMap) (k : String) (v : Yaml), (m.set k v).find k = some v
  | .nil, k, v => by simp [YMap.set, YMap.find]
  | .cons k0 w rest, k, v => by
      by_cases h : k0 = k
      · simp [YMap.set, YMap.find, h]
      · simp [YMap.set, YMap.find, h, find_set_eq rest k v]

theorem find_set_ne : ∀ (m : YMap) (k q : String) (v : Yaml), k ≠ q →
    (m.set k v).find q = m.find q
  | .nil, k, q, v, h => by simp [YMap.set, YMap.find, h]
  | .cons k0 w rest, k, q, v, h => by
      by_cases h0 : k0 = k
      · subst h0
        simp [YMap.set, YMap.find, h]
      · simp only [YMap.set, if_neg h0, YMap.find]
        by_cases hq : k0 = q
        · simp [hq]
        · simp [hq, find_set_ne rest k q v h]

theorem find_append : ∀ (m1 m2 : YMap) (k : String),
    (m1.append m2).find k =
      match m1.find k with
      | some v => some v
      | none => m2.find k
  | .nil, m2, k => by simp [YMap.append, YMap.find]
  | .cons k0 v rest, m2, k => by
      by_cases h : k0 = k
      · simp [YMap.append, YMap.find, h]
      · simp [YMap.append, YMap.find, h, find_append rest m2 k]

theorem find_ddRow : ∀ (c p : YMap) (k : String),
    (ddRow c p).find k =
      match c.find k with
      | some v =>
          some (match p.find k with
                | some pv => defaultsDeep v pv
                | none => v)
      | none => none
  | .nil, p, k => by simp [ddRow, YMap.find]
  | .cons k0 v rest, p, k => by
      by_cases h : k0 = k
      · subst h
        simp [ddRow, YMap.find]
      · simp [ddRow, YMap.find, h, find_ddRow rest p k]

theorem find_newEntries : ∀ (p c : YMap) (k : String),
    (newEntries c p).find k = if (c.find k).isNone then p.find k else none
  | .nil, c, k => by
      cases h : (c.find k).isNone <;> simp [newEntries, YMap.find, h]
  | .cons k0 v rest, c, k => by
      by_cases h : k0 = k
      · subst h
        cases hc : c.find k0 with
        | none => simp [newEntries, hc, YMap.find]
        | some w => simp [newEntries, hc, YMap.find, find_newEntries rest c k0, hc]
      · cases hc : (c.find k0).isNone <;>
          simp [newEntries, hc, YMap.find, h, find_newEntries rest c k]

theorem find_indexed_ddArr : ∀ (c p : YList) (i : Nat) (k : String),
    (indexed i (ddArr c p)).find k =
      match (indexed i c).find k, (indexed i p).find k with
      | some cv, some pv => some (defaultsDeep cv pv)
      | some cv, none => some cv
      | none, r => r
  | .nil, p, i, k => by
      cases h : (indexed i p).find k <;> simp [ddArr, indexed, YMap.find, h]
  | .cons v vs, .nil, i, k => by
      simp only [ddArr]
      rw [show indexed i YList.nil = YMap.nil from rfl]
      cases h : (indexed i (YList.cons v vs)).find k <;> simp [h, YMap.find]
  | .cons v vs, .cons pv pvs, i, k => by
      by_cases h : natToStr i = k
      · simp [ddArr, indexed, YMap.find, h]
      · simp [ddArr, indexed, YMap.find, h, find_indexed_ddArr vs pvs (i + 1) k]

theorem find_indexed_ddIdx : ∀ (c : YList) (p : YMap) (i : Nat) (k : String),
    (indexed i (ddIdx i c p)).find k =
      match (indexed i c).find k with
      | some cv =>
          some (match p.find k with
                | some pv => defaultsDeep cv pv
                | none => cv)
      | none => none
  | .nil, p, i, k => by simp [ddIdx, indexed, YMap.find]
  | .cons v vs, p, i, k => by
      by_cases h : natToStr i = k
      · subst h
        simp [ddIdx, indexed, YMap.find]
      · simp [ddIdx, indexed, YMap.find, h, find_indexed_ddIdx vs p (i + 1) k]

/-- A mapping child merges to a mapping. -/
theorem dd_of_map (c : YMap) (b : Yaml) : ∃ m, defaultsDeep (.map c) b = .map m := by
  cases b <;> simp [defaultsDeep]

/-- An array child merges to an array. -/
theorem dd_of_arr (c : YList) (b : Yaml) : ∃ xs, defaultsDeep (.arr c) b = .arr xs := by
  cases b <;> simp [defaultsDeep]

/-- A scalar child always wins wholesale. -/
theorem dd_scalar {a : Yaml} (h : isObj a = false) (b : Yaml) : defaultsDeep a b = a := by
  cases a <;> simp [isObj] at h ⊢ <;> cases b <;> rfl

/-- **Per-key merge, child present**: if the child has a value at `k`,
the merged object has, at `k`, that value merged with the parent's (the
parent being absent at `k` leaves the child value untouched). -/
theorem step_dd_present {a : Yaml} {k : String} {va : Yaml} (h : step a k = some va)
    (b : Yaml) :
    step (defaultsDeep a b) k =
      some (match step b k with
            | some vb => defaultsDeep va vb
            | none => va) := by
  cases a with
  | map c =>
      simp only [step] at h
      cases b with
      | map p =>
          simp only [defaultsDeep, step, find_append, find_ddRow, h]
      | arr p =>
          simp only [defaultsDeep, step, find_append, find_ddRow, h]
      | nil => simpa [defaultsDeep, step] using h
      | bool bb => simpa [defaultsDeep, step] using h
      | num nn => simpa [defaultsDeep, step] using h
      | str ss => simpa [defaultsDeep, step] using h
  | arr c =>
      simp only [step] at h
      cases b with
      | map p =>
          simp only [defaultsDeep, step, find_indexed_ddIdx, h]
      | arr p =>
          simp only [defaultsDeep, step, find_indexed_ddArr, h]
          cases hp : (indexed 0 p).find k <;> simp
      | nil => simpa [defaultsDeep, step] using h
      | bool bb => simpa [defaultsDeep, step] using h
      | num nn => simpa [defaultsDeep, step] using h
      | str ss => simpa [defaultsDeep, step] using h
  | nil => simp [step] at h
  | bool bb => simp [step] at h
  | num nn => simp [step] at h
  | str ss => simp [step] at h

/-- **Per-key merge, child absent**: the parent's value at `k` is copied
in when the child is a mapping, or when both are arrays; an array child
facing a mapping parent drops it (the sparse fill this model omits), and
a scalar child has no properties at all. -/
theorem step_dd_absent {a : Yaml} {k : String} (h : step a k = none) (b : Yaml) :
    step (defaultsDeep a b) k =
      match a, b with
      | .map _, _ => step b k
      | .arr _, .arr _ => step b k
      | _, _ => none := by
  cases a with
  | map c =>
      simp only [step] at h
      cases b with
      | map p =>
          simp only [defaultsDeep, step, find_append, find_ddRow, find_newEntries, h]
          simp
      | arr p =>
          simp only [defaultsDeep, step, find_append, find_ddRow, find_newEntries, h]
          simp
      | nil => simp [defaultsDeep, step, h]
      | bool bb => simp [defaultsDeep, step, h]
      | num nn => simp [defaultsDeep, step, h]
      | str ss => simp [defaultsDeep, step, h]
  | arr c =>
      simp only [step] at h
      cases b with
      | map p =>
          simp only [defaultsDeep, step, find_indexed_ddIdx, h]
      | arr p =>
          simp only [defaultsDeep, step, find_indexed_ddArr, h]
      | nil => simp [defaultsDeep, step, h]
      | bool bb => simp [defaultsDeep, step, h]
      | num nn => simp [defaultsDeep, step, h]
      | str ss => simp [defaultsDeep, step, h]
  | nil => simp [defaultsDeep, step]
  | bool bb => cases b <;> simp [defaultsDeep, step]
  | num nn => cases b <;> simp [defaultsDeep, step]
  | str ss => cases b <;> simp [defaultsDeep, step]

/-! ## Lemmas: key paths under the merge -/

theorem getPath_cons (y : Yaml) (k : String) (rest : List String) :
    getPath y (k :: rest) =
      match step y k with
      | some v => getPath v rest
      | none => none := rfl

theorem getPath_append (q r : List String) (y : Yaml) :
    getPath y (q ++ r) =
      match getPath y q with
      | some w => getPath w r
      | none => none := by
  induction q generalizing y with
  | nil => simp [getPath]
  | cons k q2 ih =>
      rw [List.cons_append, getPath_cons, getPath_cons]
      cases hs : step y k with
      | some v => exact ih v
      | none => rfl

/-- Scalar values of the child survive the merge at every key path. -/
theorem dd_keeps_scalar : ∀ (ks : List String) (a b v : Yaml),
    getPath a ks = some v → Scalar v → getPath (defaultsDeep a b) ks = some v := by
  intro ks
  induction ks with
  | nil =>
      intro a b v h hv
      simp only [getPath, Option.some.injEq] at h
      subst h
      simp [getPath, dd_scalar hv b]
  | cons k rest ih =>
      intro a b v h hv
      rw [getPath_cons] at h
      cases hs : step a k with
      | none => rw [hs] at h; exact absurd h (by simp)
      | some va =>
          rw [hs] at h
          rw [getPath_cons, step_dd_present hs b]
          cases hb : step b k with
          | some vb => exact ih va vb v h hv
          | none => exact h

/-- Any value of the child survives the merge, as itself or merged with
some parent value. -/
theorem dd_keeps_present : ∀ (ks : List String) (a b w : Yaml),
    getPath a ks = some w →
    ∃ w2, getPath (defaultsDeep a b) ks = some w2 ∧
      (w2 = w ∨ ∃ u, w2 = defaultsDeep w u) := by
  intro ks
  induction ks with
  | nil =>
      intro a b w h
      simp only [getPath, Option.some.injEq] at h
      subst h
      exact ⟨defaultsDeep a b, rfl, Or.inr ⟨b, rfl⟩⟩
  | cons k rest ih =>
      intro a b w h
      rw [getPath_cons] at h
      cases hs : step a k with
      | none => rw [hs] at h; exact absurd h (by simp)
      | some va =>
          rw [hs] at h
          rw [getPath_cons, step_dd_present hs b]
          cases hb : step b k with
          | some vb => exact ih va vb w h
          | none => exact ⟨w, h, Or.inl rfl⟩

/-- Where a merged value comes from: the child (possibly merged with the
parent's value at the same path), or — when the child has nothing on that
path — the parent. -/
theorem dd_origin : ∀ (ks : List String) (a b w : Yaml),
    getPath (defaultsDeep a b) ks = some w →
    (∃ wa, getPath a ks = some wa ∧
       (w = wa ∨ ∃ wb, getPath b ks = some wb ∧ w = defaultsDeep wa wb)) ∨
    (getPath a ks = none ∧ getPath b ks = some w) := by
  intro ks
  induction ks with
  | nil =>
      intro a b w h
      simp only [getPath, Option.some.injEq] at h
      exact Or.inl ⟨a, rfl, Or.inr ⟨b, rfl, h.symm⟩⟩
  | cons k rest ih =>
      intro a b w h
      rw [getPath_cons] at h
      cases hs : step a k with
      | some va =>
          rw [step_dd_present hs b] at h
          cases hb : step b k with
          | some vb =>
              rw [hb] at h
              rcases ih va vb w h with ⟨wa, hwa, hw⟩ | ⟨hna, hb2⟩
              · refine Or.inl ⟨wa, by rw [getPath_cons, hs]; exact hwa, ?_⟩
                rcases hw with hw | ⟨wb, hwb, hw⟩
                · exact Or.inl hw
                · exact Or.inr ⟨wb, by rw [getPath_cons, hb]; exact hwb, hw⟩
              · exact Or.inr ⟨by rw [getPath_cons, hs]; exact hna,
                  by rw [getPath_cons, hb]; exact hb2⟩
          | none =>
              rw [hb] at h
              exact Or.inl ⟨w, by rw [getPath_cons, hs]; exact h, Or.inl rfl⟩
      | none =>
          rw [step_dd_absent hs b] at h
          have hna : getPath a (k :: rest) = none := by rw [getPath_cons, hs]
          cases a with
          | map c =>
              cases hb : step b k with
              | some vb =>
                  rw [hb] at h
                  exact Or.inr ⟨hna, by rw [getPath_cons, hb]; exact h⟩
              | none => rw [hb] at h; exact absurd h (by simp)
          | arr c =>
              cases b with
              | arr p =>
                  cases hb : step (.arr p) k with
                  | some vb =>
                      rw [hb] at h
                      exact Or.inr ⟨hna, by rw [getPath_cons, hb]; exact h⟩
                  | none => rw [hb] at h; exact absurd h (by simp)
              | map p => exact absurd h (by simp)
              | nil => exact absurd h (by simp)
              | bool bb => exact absurd h (by simp)
              | num nn => exact absurd h (by simp)
              | str ss => exact absurd h (by simp)
          | nil => exact absurd h (by simp)
          | bool bb => exact absurd h (by simp)
          | num nn => exact absurd h (by simp)
          | str ss => exact absurd h (by simp)

/-- A path absent from both sides is absent from the merge. -/
theorem dd_none_none : ∀ (ks : List String) (a b : Yaml),
    getPath a ks = none → getPath b ks = none → getPath (defaultsDeep a b) ks = none := by
  intro ks
  induction ks with
  | nil => intro a b h _; exact absurd h (by simp [getPath])
  | cons k rest ih =>
      intro a b ha hb
      rw [getPath_cons] at ha hb ⊢
      cases hs : step a k with
      | some va =>
          rw [hs] at ha
          rw [step_dd_present hs b]
          cases hsb : step b k with
          | some vb => rw [hsb] at hb; exact ih va vb ha hb
          | none => exact ha
      | none =>
          rw [step_dd_absent hs b]
          cases a with
          | map c =>
              cases hsb : step b k with
              | some vb => rw [hsb] at hb; exact hb
              | none => rfl
          | arr c =>
              cases b with
              | arr p =>
                  cases hsb : step (.arr p) k with
                  | some vb => rw [hsb] at hb; exact hb
                  | none => rfl
              | map p => rfl
              | nil => rfl
              | bool bb => rfl
              | num nn => rfl
              | str ss => rfl
          | nil => rfl
          | bool bb => rfl
          | num nn => rfl
          | str ss => rfl

/-- Array index keys are decimal strings. -/
theorem find_indexed_key : ∀ (xs : YList) (i : Nat) (k : String) (v : Yaml),
    (indexed i xs).find k = some v → ∃ n, k = natToStr n
  | .nil, _, k, v, h => by simp [indexed, YMap.find] at h
  | .cons y ys, i, k, v, h => by
      by_cases he : natToStr i = k
      · exact ⟨i, he.symm⟩
      · simp only [indexed, YMap.find, if_neg he] at h
        exact find_indexed_key ys (i + 1) k v h

theorem block_step_none {w : Yaml} {k : String} (h : BlockStep w k) : step w k = none := by
  rcases h with h | ⟨xs, rfl, hdec⟩
  · cases w <;> simp_all [isObj, step]
  · cases hf : (indexed 0 xs).find k with
    | none => simp [step, hf]
    | some v =>
        exfalso
        obtain ⟨n, rfl⟩ := find_indexed_key xs 0 _ v hf
        rw [decIdx_natToStr n] at hdec
        exact Option.noConfusion hdec

/-- A dead path yields nothing. -/
theorem dead_none {a : Yaml} {ks : List String} (h : DeadA a ks) : getPath a ks = none := by
  obtain ⟨q, k, r, rfl, w, hq, hblock⟩ := h
  rw [getPath_append, hq]
  show getPath w (k :: r) = none
  rw [getPath_cons, block_step_none hblock]

/-- Deadness is preserved by the merge. -/
theorem dd_dead {a : Yaml} {ks : List String} (h : DeadA a ks) (b : Yaml) :
    DeadA (defaultsDeep a b) ks := by
  obtain ⟨q, k, r, rfl, w, hq, hblock⟩ := h
  obtain ⟨w2, hw2, hcase⟩ := dd_keeps_present q a b w hq
  refine ⟨q, k, r, rfl, w2, hw2, ?_⟩
  rcases hblock with hsc | ⟨xs, rfl, hdec⟩
  · left
    rcases hcase with rfl | ⟨u, rfl⟩
    · exact hsc
    · rw [dd_scalar hsc u]; exact hsc
  · rcases hcase with rfl | ⟨u, rfl⟩
    · exact Or.inr ⟨xs, rfl, hdec⟩
    · obtain ⟨xs2, hxs2⟩ := dd_of_arr xs u
      exact Or.inr ⟨xs2, hxs2, hdec⟩

/-- A step into a dead tail is dead. -/
theorem dead_cons {y w : Yaml} {k : String} {rest : List String}
    (hs : step y k = some w) (h : DeadA w rest) : DeadA y (k :: rest) := by
  obtain ⟨q, k2, r, hrest, w2, hq, hblock⟩ := h
  refine ⟨k :: q, k2, r, by rw [hrest, List.cons_append], w2, ?_, hblock⟩
  rw [getPath_cons, hs]
  exact hq

/-- A blocked first step kills the whole path. -/
theorem dead_head {y : Yaml} {k : String} (rest : List String) (h : BlockStep y k) :
    DeadA y (k :: rest) :=
  ⟨[], k, rest, rfl, y, rfl, h⟩

theorem pathClear_head {a : Yaml} {k : String} {rest : List String}
    (h : pathClear a (k :: rest)) : isMap a = true :=
  h.2 [] k rest rfl a rfl

theorem pathClear_step {a va : Yaml} {k : String} {rest : List String}
    (h : pathClear a (k :: rest)) (hs : step a k = some va) : pathClear va rest := by
  constructor
  · have h1 := h.1
    rw [getPath_cons, hs] at h1
    exact h1
  · intro q k2 r hrest w hw
    exact h.2 (k :: q) k2 r (by rw [hrest, List.cons_append]) w
      (by rw [getPath_cons, hs]; exact hw)

/-! ## Lemmas: `wellKeyed` -/

theorem wkRow_find : ∀ (m : YMap) (k : String) (v : Yaml), wkRow m = true →
    m.find k = some v → (decIdx k).isNone = true ∧ wellKeyed v = true
  | .nil, k, v, _, hf => by simp [YMap.find] at hf
  | .cons k0 v0 rest, k, v, h, hf => by
      simp only [wkRow, Bool.and_eq_true] at h
      by_cases he : k0 = k
      · subst he
        simp only [YMap.find, if_pos, Option.some.injEq] at hf
        subst hf
        exact ⟨h.1.1, h.1.2⟩
      · simp only [YMap.find, if_neg he] at hf
        exact wkRow_find rest k v h.2 hf

theorem wkArr_indexed : ∀ (xs : YList) (i : Nat) (k : String) (v : Yaml), wkArr xs = true →
    (indexed i xs).find k = some v → wellKeyed v = true
  | .nil, _, k, v, _, hf => by simp [indexed, YMap.find] at hf
  | .cons y ys, i, k, v, h, hf => by
      simp only [wkArr, Bool.and_eq_true] at h
      by_cases he : natToStr i = k
      · simp only [indexed, YMap.find, if_pos he, Option.some.injEq] at hf
        subst hf
        exact h.1
      · simp only [indexed, YMap.find, if_neg he] at hf
        exact wkArr_indexed ys (i + 1) k v h.2 hf

theorem wk_step {y v : Yaml} {k : String} (h : wellKeyed y = true) (hs : step y k = some v) :
    wellKeyed v = true := by
  cases y with
  | map kvs => exact (wkRow_find kvs k v (by simpa [wellKeyed] using h) hs).2
  | arr xs => exact wkArr_indexed xs 0 k v (by simpa [wellKeyed] using h) hs
  | nil => simp [step] at hs
  | bool bb => simp [step] at hs
  | num nn => simp [step] at hs
  | str ss => simp [step] at hs

theorem wk_map_key {kvs : YMap} {k : String} {v : Yaml} (h : wellKeyed (.map kvs) = true)
    (hf : kvs.find k = some v) : decIdx k = none := by
  have hw := (wkRow_find kvs k v (by simpa [wellKeyed] using h) hf).1
  simpa [Option.isNone_iff_eq_none] using hw

/-! ## Lemmas: filling absent paths -/

/-- A parent value at a path that is clear in the child survives the merge
verbatim. -/
theorem dd_clear_fill : ∀ (ks : List String) (a b v : Yaml),
    pathClear a ks → getPath b ks = some v → getPath (defaultsDeep a b) ks = some v := by
  intro ks
  induction ks with
  | nil =>
      intro a b v hc _
      exact absurd hc.1 (by simp [getPath])
  | cons k rest ih =>
      intro a b v hc hb
      rw [getPath_cons] at hb
      cases hsb : step b k with
      | none => rw [hsb] at hb; exact absurd hb (by simp)
      | some vb =>
          rw [hsb] at hb
          have hmap := pathClear_head hc
          cases hs : step a k with
          | none =>
              rw [getPath_cons, step_dd_absent hs b]
              cases a with
              | map c => rw [hsb]; exact hb
              | arr c => simp [isMap] at hmap
              | nil => simp [isMap] at hmap
              | bool bb => simp [isMap] at hmap
              | num nn => simp [isMap] at hmap
              | str ss => simp [isMap] at hmap
          | some va =>
              rw [getPath_cons, step_dd_present hs b, hsb]
              exact ih va vb v (pathClear_step hc hs) hb

/-- Clearness of a path is preserved by the merge. -/
theorem dd_clear : ∀ (ks : List String) (a b : Yaml),
    pathClear a ks → pathClear b ks → pathClear (defaultsDeep a b) ks := by
  intro ks a b ha hb
  refine ⟨dd_none_none ks a b ha.1 hb.1, ?_⟩
  intro q k r hks w hw
  rcases dd_origin q a b w hw with ⟨wa, hwa, hcase⟩ | ⟨-, hbq⟩
  · have hma := ha.2 q k r hks wa hwa
    rcases hcase with rfl | ⟨wb, -, rfl⟩
    · exact hma
    · cases wa with
      | map m =>
          obtain ⟨m2, hm2⟩ := dd_of_map m wb
          rw [hm2]
          rfl
      | arr xs => simp [isMap] at hma
      | nil => simp [isMap] at hma
      | bool bb => simp [isMap] at hma
      | num nn => simp [isMap] at hma
      | str ss => simp [isMap] at hma
  · exact hb.2 q k r hks w hbq

/-- A parent value at a path absent from the child either survives the
merge or the path is dead in the merge (the latter only through a scalar
child or an array child meeting a non-index key). -/
theorem dd_fill_or_dead : ∀ (ks : List String) (a b v : Yaml),
    getPath a ks = none → getPath b ks = some v → wellKeyed b = true →
    getPath (defaultsDeep a b) ks = some v ∨ DeadA (defaultsDeep a b) ks := by
  intro ks
  induction ks with
  | nil =>
      intro a b v ha _ _
      exact absurd ha (by simp [getPath])
  | cons k rest ih =>
      intro a b v ha hb hwk
      rw [getPath_cons] at ha hb
      cases hsb : step b k with
      | none => rw [hsb] at hb; exact absurd hb (by simp)
      | some vb =>
          rw [hsb] at hb
          cases hs : step a k with
          | some va =>
              rw [hs] at ha
              rcases ih va vb v ha hb (wk_step hwk hsb) with hgood | hdead
              · left
                rw [getPath_cons, step_dd_present hs b, hsb]
                exact hgood
              · right
                have hstep2 : step (defaultsDeep a b) k = some (defaultsDeep va vb) := by
                  rw [step_dd_present hs b, hsb]
                exact dead_cons hstep2 hdead
          | none =>
              cases a with
              | map c =>
                  left
                  rw [getPath_cons, step_dd_absent hs b, hsb]
                  exact hb
              | arr c =>
                  cases b with
                  | arr p =>
                      left
                      rw [getPath_cons, step_dd_absent hs (Yaml.arr p), hsb]
                      exact hb
                  | map p =>
                      right
                      have hdec : decIdx k = none := wk_map_key hwk hsb
                      obtain ⟨xs2, hxs2⟩ := dd_of_arr c (.map p)
                      rw [hxs2]
                      exact dead_head rest (Or.inr ⟨xs2, rfl, hdec⟩)
                  | nil => simp [step] at hsb
                  | bool bb => simp [step] at hsb
                  | num nn => simp [step] at hsb
                  | str ss => simp [step] at hsb
              | nil =>
                  right
                  rw [dd_scalar (by rfl) b]
                  exact dead_head rest (Or.inl rfl)
              | bool bb =>
                  right
                  rw [dd_scalar (by rfl) b]
                  exact dead_head rest (Or.inl rfl)
              | num nn =>
                  right
                  rw [dd_scalar (by rfl) b]
                  exact dead_head rest (Or.inl rfl)
              | str ss =>
                  right
                  rw [dd_scalar (by rfl) b]
                  exact dead_head rest (Or.inl rfl)

/-- Scalar merged values originate in the child, or in the parent at a
path the child lacks. -/
theorem dd_scalar_origin {ks : List String} {a b v : Yaml}
    (h : getPath (defaultsDeep a b) ks = some v) (hv : Scalar v) :
    getPath a ks = some v ∨ (getPath a ks = none ∧ getPath b ks = some v) := by
  rcases dd_origin ks a b v h with ⟨wa, hwa, hc⟩ | h2
  · left
    rcases hc with rfl | ⟨wb, -, rfl⟩
    · exact hwa
    · have hsc : isObj wa = false := by
        cases wa with
        | map m =>
            obtain ⟨m2, e⟩ := dd_of_map m wb
            rw [e] at hv
            simp [Scalar, isObj] at hv
        | arr xs =>
            obtain ⟨x2, e⟩ := dd_of_arr xs wb
            rw [e] at hv
            simp [Scalar, isObj] at hv
        | nil => rfl
        | bool bb => rfl
        | num nn => rfl
        | str ss => rfl
      rw [dd_scalar hsc wb]
      exact hwa
  · right
    exact h2

/-! ## Lemmas: folding a chain of parents -/

theorem foldl_keeps_scalar : ∀ (ds : List Yaml) (acc : Yaml) (ks : List String) (v : Yaml),
    getPath acc ks = some v → Scalar v →
    getPath (ds.foldl defaultsDeep acc) ks = some v := by
  intro ds
  induction ds with
  | nil => intro acc ks v h _; simpa using h
  | cons d ds2 ih =>
      intro acc ks v h hv
      rw [List.foldl_cons]
      exact ih _ ks v (dd_keeps_scalar ks acc d v h hv) hv

theorem foldl_isMap : ∀ (ds : List Yaml) (acc : Yaml), isMap acc = true →
    isMap (ds.foldl defaultsDeep acc) = true := by
  intro ds
  induction ds with
  | nil => intro acc h; simpa using h
  | cons d ds2 ih =>
      intro acc h
      rw [List.foldl_cons]
      refine ih _ ?_
      cases acc with
      | map m =>
          obtain ⟨m2, e⟩ := dd_of_map m d
          rw [e]
          rfl
      | arr xs => simp [isMap] at h
      | nil => simp [isMap] at h
      | bool bb => simp [isMap] at h
      | num nn => simp [isMap] at h
      | str ss => simp [isMap] at h

theorem dd_isMap {a : Yaml} (h : isMap a = true) (b : Yaml) :
    isMap (defaultsDeep a b) = true := by
  cases a with
  | map m =>
      obtain ⟨m2, e⟩ := dd_of_map m b
      rw [e]
      rfl
  | arr xs => simp [isMap] at h
  | nil => simp [isMap] at h
  | bool bb => simp [isMap] at h
  | num nn => simp [isMap] at h
  | str ss => simp [isMap] at h

theorem step_dd_cover {a b : Yaml} {k : String} (ha : isMap a = true)
    (h : (step a k).isSome = true ∨ (step b k).isSome = true) :
    (step (defaultsDeep a b) k).isSome = true := by
  cases hs : step a k with
  | some va =>
      rw [step_dd_present hs b]
      cases step b k <;> simp
  | none =>
      rw [step_dd_absent hs b]
      cases a with
      | map c =>
          rcases h with h | h
          · rw [hs] at h; simp at h
          · exact h
      | arr xs => simp [isMap] at ha
      | nil => simp [isMap] at ha
      | bool bb => simp [isMap] at ha
      | num nn => simp [isMap] at ha
      | str ss => simp [isMap] at ha

theorem foldl_cover : ∀ (ds : List Yaml) (acc : Yaml) (k : String),
    isMap acc = true → (∀ d ∈ ds, isMap d = true) →
    ((step acc k).isSome = true ∨ ∃ d ∈ ds, (step d k).isSome = true) →
    (step (ds.foldl defaultsDeep acc) k).isSome = true := by
  intro ds
  induction ds with
  | nil =>
      intro acc k _ _ h
      rcases h with h | ⟨d, hd, -⟩
      · simpa using h
      · simp at hd
  | cons d ds2 ih =>
      intro acc k ha hall h
      rw [List.foldl_cons]
      apply ih _ k (dd_isMap ha d) (fun x hx => hall x (by simp [hx]))
      rcases h with h | ⟨e, he, hse⟩
      · exact Or.inl (step_dd_cover ha (Or.inl h))
      · rcases List.mem_cons.mp he with rfl | he2
        · exact Or.inl (step_dd_cover ha (Or.inr hse))
        · exact Or.inr ⟨e, he2, hse⟩

/-- Every scalar of the fold comes from the accumulator or from the
nearest document in the list that has its path, all nearer documents
lacking it. -/
theorem foldl_scalar_origin : ∀ (ds : List Yaml) (acc : Yaml) (ks : List String) (v : Yaml),
    (∀ d ∈ ds, wellKeyed d = true) →
    getPath (ds.foldl defaultsDeep acc) ks = some v → Scalar v →
    getPath acc ks = some v ∨
      (getPath acc ks = none ∧ ¬ DeadA acc ks ∧
       ∃ (i : Nat) (di : Yaml), ds[i]? = some di ∧ getPath di ks = some v ∧
         ∀ (j : Nat) (dj : Yaml), j < i → ds[j]? = some dj → getPath dj ks = none) := by
  intro ds
  induction ds with
  | nil =>
      intro acc ks v _ h _
      left
      simpa using h
  | cons d ds2 ih =>
      intro acc ks v hwk h hv
      rw [List.foldl_cons] at h
      rcases ih (defaultsDeep acc d) ks v (fun x hx => hwk x (by simp [hx])) h hv with
        h1 | ⟨hnone, hnd, i, di, hget, hdi, hprev⟩
      · rcases dd_scalar_origin h1 hv with h2 | ⟨hna, hd⟩
        · exact Or.inl h2
        · right
          refine ⟨hna, ?_, 0, d, by simp, hd, ?_⟩
          · intro hdead
            have hn := dead_none (dd_dead hdead d)
            rw [hn] at h1
            exact Option.noConfusion h1
          · intro j dj hj _
            omega
      · have haccnone : getPath acc ks = none := by
          cases hacc : getPath acc ks with
          | none => rfl
          | some w =>
              obtain ⟨w2, hw2, -⟩ := dd_keeps_present ks acc d w hacc
              rw [hw2] at hnone
              exact Option.noConfusion hnone
        have hndacc : ¬ DeadA acc ks := fun hd2 => hnd (dd_dead hd2 d)
        have hdnone : getPath d ks = none := by
          cases hd2 : getPath d ks with
          | none => rfl
          | some u =>
              rcases dd_fill_or_dead ks acc d u haccnone hd2 (hwk d (by simp)) with hx | hx
              · rw [hx] at hnone
                exact Option.noConfusion hnone
              · exact absurd hx hnd
        right
        refine ⟨haccnone, hndacc, i + 1, di, by simpa using hget, hdi, ?_⟩
        intro j dj hj hjget
        cases j with
        | zero =>
            simp only [List.getElem?_cons_zero, Option.some.injEq] at hjget
            rw [← hjget]
            exact hdnone
        | succ j2 =>
            exact hprev j2 dj (by omega) (by simpa using hjget)

/-- A scalar at a path clear in the accumulator and in every nearer
document is filled from the nearest document defining it and then
survives to the end of the fold. -/
theorem foldl_clear_fill : ∀ (ds : List Yaml) (acc : Yaml) (ks : List String) (i : Nat)
    (di v : Yaml),
    pathClear acc ks →
    (∀ (j : Nat) (dj : Yaml), j < i → ds[j]? = some dj → pathClear dj ks) →
    ds[i]? = some di → getPath di ks = some v → Scalar v →
    getPath (ds.foldl defaultsDeep acc) ks = some v := by
  intro ds
  induction ds with
  | nil => intro acc ks i di v _ _ hget _ _; simp at hget
  | cons d ds2 ih =>
      intro acc ks i di v hacc hclear hget hdi hv
      rw [List.foldl_cons]
      cases i with
      | zero =>
          simp only [List.getElem?_cons_zero, Option.some.injEq] at hget
          subst hget
          exact foldl_keeps_scalar ds2 _ ks v (dd_clear_fill ks acc d v hacc hdi) hv
      | succ i2 =>
          have hd0 : pathClear d ks := hclear 0 d (by omega) (by simp)
          exact ih (defaultsDeep acc d) ks i2 di v (dd_clear ks acc d hacc hd0)
            (fun j dj hj hjg => hclear (j + 1) dj (by omega) (by simpa using hjg))
            (by simpa using hget) hdi hv

/-! ## Lemmas: caches and rewrites -/

theorem alist_aset_eq {α : Type} : ∀ (l : List (String × α)) (k : String) (v : α),
    alist (aset l k v) k = some v
  | [], k, v => by simp [aset, alist]
  | (k0, w) :: rest, k, v => by
      by_cases h : k0 = k
      · simp [aset, alist, h]
      · simp [aset, alist, h, alist_aset_eq rest k v]

theorem alist_aset_ne {α : Type} : ∀ (l : List (String × α)) (k q : String) (v : α),
    k ≠ q → alist (aset l k v) q = alist l q
  | [], k, q, v, h => by simp [aset, alist, h]
  | (k0, w) :: rest, k, q, v, h => by
      by_cases h0 : k0 = k
      · subst h0
        simp [aset, alist, h]
      · simp only [aset, if_neg h0, alist]
        by_cases hq : k0 = q
        · simp [hq]
        · simp [hq, alist_aset_ne rest k q v h]

theorem getKey_setKey_ne (d : Yaml) (k q : String) (v : Yaml) (h : k ≠ q) :
    getKey (setKey d k v) q = getKey d q := by
  cases d <;> simp [setKey, getKey]
  exact find_set_ne _ k q v h

/-- The source's conditional rewrite of one field of an inherited
document agrees with the total `rw1` whenever the field is usable. -/
theorem nilDoc_of_isMap {d : Yaml} (h : isMap d = true) : nilDoc d = false := by
  cases d <;> simp_all [isMap, nilDoc]

theorem nilDoc_rw1 (cwd q f : String) (d : Yaml) : nilDoc (rw1 cwd q f d) = nilDoc d := by
  cases hk : getKey d f with
  | none => unfold rw1; rw [hk]
  | some v =>
      cases v with
      | str t =>
          by_cases ht : t = ""
          · unfold rw1; rw [hk]; simp only [if_pos ht]
          · unfold rw1; rw [hk]; simp only [if_neg ht]
            cases d with
            | map m => rfl
            | nil => simp [getKey] at hk
            | arr xs => simp [getKey] at hk
            | bool bb => simp [getKey] at hk
            | num nn => simp [getKey] at hk
            | str ss => simp [getKey] at hk
      | nil => unfold rw1; rw [hk]
      | bool bb => unfold rw1; rw [hk]
      | num nn => unfold rw1; rw [hk]
      | arr xs => unfold rw1; rw [hk]
      | map m => unfold rw1; rw [hk]

/-- A parent that parses to YAML `null` makes the whole load reject
(the property access `inheritYml.site_dir` throws a `TypeError`); the
loop never completes with a merged value there. -/
theorem readMkDocsYml_nil_parent_rejects :
    (readMkDocsYml 2 "/d/child.yml" "/w" (initFsState exNilFiles)).map (fun pr => pr.1)
      = some none := by rfl

theorem rewriteDir_rw1 {d : Yaml} {field : String} (cwd q : String)
    (hnn : nilDoc d = false) (hok : fieldOk d field = true) :
    rewriteDir cwd [dirname q] field d = some (rw1 cwd q field d) := by
  unfold fieldOk at hok
  unfold rewriteDir rw1
  rw [hnn]
  simp only [Bool.false_eq_true, if_false]
  cases hk : getKey d field with
  | none => rfl
  | some v =>
      rw [hk] at hok
      cases v with
      | str t => by_cases ht : t = "" <;> simp [truthy, ht]
      | nil => simp [truthy]
      | bool bb =>
          have hb : bb = false := by simpa [truthy] using hok
          subst hb
          simp [truthy]
      | num nn =>
          have hn : nn = 0 := by simpa [truthy] using hok
          subst hn
          simp [truthy]
      | arr xs => simp [truthy] at hok
      | map m => simp [truthy] at hok

/-- Same for the top-level `site_dir` rewrite (bases `[cwd, dirname p]`). -/
theorem rewriteDir_rwTop {d : Yaml} (cwd p : String)
    (hnn : nilDoc d = false) (hok : fieldOk d "site_dir" = true) :
    rewriteDir cwd [cwd, dirname p] "site_dir" d = some (rwTop cwd p d) := by
  unfold fieldOk at hok
  unfold rewriteDir rwTop
  rw [hnn]
  simp only [Bool.false_eq_true, if_false]
  cases hk : getKey d "site_dir" with
  | none => rfl
  | some v =>
      rw [hk] at hok
      cases v with
      | str t => by_cases ht : t = "" <;> simp [truthy, ht]
      | nil => simp [truthy]
      | bool bb =>
          have hb : bb = false := by simpa [truthy] using hok
          subst hb
          simp [truthy]
      | num nn =>
          have hn : nn = 0 := by simpa [truthy] using hok
          subst hn
          simp [truthy]
      | arr xs => simp [truthy] at hok
      | map m => simp [truthy] at hok

theorem rw1_getKey_ne (cwd q field g : String) (d : Yaml) (h : field ≠ g) :
    getKey (rw1 cwd q field d) g = getKey d g := by
  unfold rw1
  cases hk : getKey d field with
  | none => rfl
  | some v =>
      cases v <;> try rfl
      case str t =>
        by_cases ht : t = ""
        · simp [ht]
        · simp [ht, getKey_setKey_ne _ _ _ _ h]

theorem rwTop_getKey_ne (cwd p g : String) (d : Yaml) (h : "site_dir" ≠ g) :
    getKey (rwTop cwd p d) g = getKey d g := by
  unfold rwTop
  cases hk : getKey d "site_dir" with
  | none => rfl
  | some v =>
      cases v <;> try rfl
      case str t =>
        by_cases ht : t = ""
        · simp [ht]
        · simp [ht, getKey_setKey_ne _ _ _ _ h]

theorem fieldOk_rw1_ne (cwd q field g : String) (d : Yaml) (h : field ≠ g) :
    fieldOk (rw1 cwd q field d) g = fieldOk d g := by
  unfold fieldOk
  rw [rw1_getKey_ne cwd q field g d h]

theorem absD_getKey_inherit (cwd q : String) (d : Yaml) :
    getKey (absD cwd q d) "INHERIT" = getKey d "INHERIT" := by
  unfold absD
  rw [rw1_getKey_ne cwd q "docs_dir" "INHERIT" _ (by decide),
      rw1_getKey_ne cwd q "site_dir" "INHERIT" _ (by decide)]

/-- One successful iteration of the inherit loop, unfolded. -/
theorem mkLoop_step_eq {ip : String} {d : Yaml} {s : FsState} (cwd topPath : String)
    (f : Nat) (acc : Yaml)
    (hmiss : alist s.yamlCache ip = none)
    (hfile : alist s.files ip = some d)
    (hnil : nilDoc d = false)
    (hsite : fieldOk d "site_dir" = true)
    (hdocs : fieldOk d "docs_dir" = true) :
    mkLoop cwd topPath (f + 1) acc ip s =
      (let d2 := absD cwd ip d
       let acc2 := defaultsDeep acc d2
       let s4 := setYamlCache topPath acc2 (setYamlCache ip d2 (setYamlCache ip
         (rw1 cwd ip "site_dir" d)
         { s with yamlCache := (ip, some d) :: s.yamlCache, reads := s.reads + 1 }))
       match getKey d "INHERIT" with
       | some v =>
           if truthy v then
             match v with
             | .str t => mkLoop cwd topPath f acc2 (resolveParts cwd [dirname ip, t]) s4
             | _ => some (none, s4)
           else some (some acc2, s4)
       | none => some (some acc2, s4)) := by
  have hYread : readYaml ip s =
      (some d, { s with yamlCache := (ip, some d) :: s.yamlCache, reads := s.reads + 1 }) := by
    unfold readYaml
    rw [hmiss, hfile]
  have hdocs2 : fieldOk (rw1 cwd ip "site_dir" d) "docs_dir" = true := by
    rw [fieldOk_rw1_ne cwd ip "site_dir" "docs_dir" d (by decide)]
    exact hdocs
  simp only [mkLoop]
  rw [hYread]
  simp only
  rw [rewriteDir_rw1 cwd ip hnil hsite]
  simp only
  rw [rewriteDir_rw1 cwd ip (by rw [nilDoc_rw1]; exact hnil) hdocs2]
  simp only
  rw [show rw1 cwd ip "docs_dir" (rw1 cwd ip "site_dir" d) = absD cwd ip d from rfl,
      absD_getKey_inherit]

/-- The inherit loop over an acyclic chain computes the fold of the
deep-default merge over the rewritten parents, reads each exactly once,
and leaves the rewritten parents (and the accumulator at the top path)
in `readYaml`'s cache. -/
theorem mkLoop_chain {files : List (String × Yaml)} {cwd topPath ip : String}
    {docs : List (String × Yaml)}
    (hchain : Chain files cwd ip docs) :
    ∀ (s : FsState) (acc : Yaml) (fuel : Nat),
      s.files = files →
      (∀ pr ∈ docs, isMap pr.2 = true) →
      (docs.map Prod.fst).Nodup →
      topPath ∉ docs.map Prod.fst →
      (∀ q ∈ docs.map Prod.fst, alist s.yamlCache q = none) →
      docs.length ≤ fuel →
      ∃ s2 : FsState,
        mkLoop cwd topPath fuel acc ip s = some (some (foldChain cwd acc docs), s2) ∧
        s2.files = files ∧
        s2.mkCache = s.mkCache ∧
        s2.reads = s.reads + docs.length ∧
        (∀ q d2, (q, d2) ∈ docs → alist s2.yamlCache q = some (some (absD cwd q d2))) ∧
        alist s2.yamlCache topPath = some (some (foldChain cwd acc docs)) ∧
        (∀ q, q ∉ docs.map Prod.fst → q ≠ topPath →
          alist s2.yamlCache q = alist s.yamlCache q) := by
  induction hchain with
  | last ip d hfile hdirs hlast =>
      intro s acc fuel hsfiles hmaps hnodup htp hcache hfuel
      obtain ⟨f, rfl⟩ : ∃ f, fuel = f + 1 := by
        cases fuel with
        | zero => simp at hfuel
        | succ f => exact ⟨f, rfl⟩
      obtain ⟨hsite, hdocs⟩ : fieldOk d "site_dir" = true ∧ fieldOk d "docs_dir" = true := by
        simpa [dirsOk, Bool.and_eq_true] using hdirs
      have hmiss : alist s.yamlCache ip = none := hcache ip (by simp)
      have htpip : topPath ≠ ip := by
        intro h
        exact htp (by simp [h])
      rw [mkLoop_step_eq cwd topPath f acc hmiss (by rw [hsfiles]; exact hfile)
        (nilDoc_of_isMap (hmaps (ip, d) (by simp))) hsite hdocs]
      simp only
      have hfold : foldChain cwd acc [(ip, d)] = defaultsDeep acc (absD cwd ip d) := by
        simp [foldChain]
      have hbranch :
          (match getKey d "INHERIT" with
           | some v =>
               if truthy v then
                 match v with
                 | Yaml.str t =>
                     mkLoop cwd topPath f (defaultsDeep acc (absD cwd ip d))
                       (resolveParts cwd [dirname ip, t])
                       (setYamlCache topPath (defaultsDeep acc (absD cwd ip d))
                         (setYamlCache ip (absD cwd ip d) (setYamlCache ip
                           (rw1 cwd ip "site_dir" d)
                           { s with yamlCache := (ip, some d) :: s.yamlCache,
                                    reads := s.reads + 1 })))
                 | _ =>
                     some (none,
                       setYamlCache topPath (defaultsDeep acc (absD cwd ip d))
                         (setYamlCache ip (absD cwd ip d) (setYamlCache ip
                           (rw1 cwd ip "site_dir" d)
                           { s with yamlCache := (ip, some d) :: s.yamlCache,
                                    reads := s.reads + 1 })))
               else
                 some (some (defaultsDeep acc (absD cwd ip d)),
                   setYamlCache topPath (defaultsDeep acc (absD cwd ip d))
                     (setYamlCache ip (absD cwd ip d) (setYamlCache ip
                       (rw1 cwd ip "site_dir" d)
                       { s with yamlCache := (ip, some d) :: s.yamlCache,
                                reads := s.reads + 1 })))
           | none =>
               some (some (defaultsDeep acc (absD cwd ip d)),
                 setYamlCache topPath (defaultsDeep acc (absD cwd ip d))
                   (setYamlCache ip (absD cwd ip d) (setYamlCache ip
                     (rw1 cwd ip "site_dir" d)
                     { s with yamlCache := (ip, some d) :: s.yamlCache,
                              reads := s.reads + 1 }))))
            = some (some (defaultsDeep acc (absD cwd ip d)),
                setYamlCache topPath (defaultsDeep acc (absD cwd ip d))
                  (setYamlCache ip (absD cwd ip d) (setYamlCache ip
                    (rw1 cwd ip "site_dir" d)
                    { s with yamlCache := (ip, some d) :: s.yamlCache,
                             reads := s.reads + 1 }))) := by
        unfold inheritLast at hlast
        cases hI : getKey d "INHERIT" with
        | none => rfl
        | some v =>
            rw [hI] at hlast
            have htr : truthy v = false := by simpa using hlast
            simp [htr]
      rw [hbranch, hfold]
      refine ⟨_, rfl, by simp [setYamlCache, hsfiles], by simp [setYamlCache],
        by simp [setYamlCache], ?_, ?_, ?_⟩
      · intro q d2 hqd
        simp only [List.mem_singleton] at hqd
        rw [Prod.mk.injEq] at hqd
        obtain ⟨rfl, rfl⟩ := hqd
        simp only [setYamlCache]
        rw [alist_aset_ne _ _ _ _ htpip]
        exact alist_aset_eq _ _ _
      · simp only [setYamlCache]
        exact alist_aset_eq _ _ _
      · intro q hq hqtp
        have hqip : q ≠ ip := by
          intro h
          exact hq (by simp [h])
        simp only [setYamlCache]
        rw [alist_aset_ne _ _ _ _ (fun h => hqtp h.symm),
            alist_aset_ne _ _ _ _ (fun h => hqip h.symm),
            alist_aset_ne _ _ _ _ (fun h => hqip h.symm)]
        simp only [alist]
        rw [if_neg (fun h => hqip h.symm)]
  | step ip d t rest hfile hdirs hinh ht hrest ih =>
      intro s acc fuel hsfiles hmaps hnodup htp hcache hfuel
      obtain ⟨f, rfl⟩ : ∃ f, fuel = f + 1 := by
        cases fuel with
        | zero => simp at hfuel
        | succ f => exact ⟨f, rfl⟩
      obtain ⟨hsite, hdocs⟩ : fieldOk d "site_dir" = true ∧ fieldOk d "docs_dir" = true := by
        simpa [dirsOk, Bool.and_eq_true] using hdirs
      have hmiss : alist s.yamlCache ip = none := hcache ip (by simp)
      have htpip : topPath ≠ ip := by
        intro h
        exact htp (by simp [h])
      have hipnotrest : ip ∉ rest.map Prod.fst := by
        simp only [List.map_cons, List.nodup_cons] at hnodup
        exact hnodup.1
      rw [mkLoop_step_eq cwd topPath f acc hmiss (by rw [hsfiles]; exact hfile)
        (nilDoc_of_isMap (hmaps (ip, d) (by simp))) hsite hdocs]
      simp only
      rw [hinh]
      simp only
      rw [if_pos (show truthy (Yaml.str t) = true from by simp [truthy, ht])]
      -- the recursive call on the next hop
      set s4 : FsState :=
        setYamlCache topPath (defaultsDeep acc (absD cwd ip d))
          (setYamlCache ip (absD cwd ip d) (setYamlCache ip
            (rw1 cwd ip "site_dir" d)
            { s with yamlCache := (ip, some d) :: s.yamlCache,
                     reads := s.reads + 1 })) with hs4
      have hs4files : s4.files = files := by simp [hs4, setYamlCache, hsfiles]
      have hs4cache : ∀ q ∈ rest.map Prod.fst, alist s4.yamlCache q = none := by
        intro q hq
        have hqip : q ≠ ip := fun h => hipnotrest (h ▸ hq)
        have hqtp : q ≠ topPath := by
          intro h
          exact htp (by simp [← h, hq])
        simp only [hs4, setYamlCache]
        rw [alist_aset_ne _ _ _ _ (fun h => hqtp h.symm),
            alist_aset_ne _ _ _ _ (fun h => hqip h.symm),
            alist_aset_ne _ _ _ _ (fun h => hqip h.symm)]
        simp only [alist]
        rw [if_neg (fun h => hqip h.symm)]
        exact hcache q (by simp [hq])
      obtain ⟨s5, hrun, hf5, hmk5, hreads5, hdocs5, htop5, hother5⟩ :=
        ih s4 (defaultsDeep acc (absD cwd ip d)) f hs4files
          (fun pr hpr => hmaps pr (List.mem_cons_of_mem _ hpr))
          (by simpa [List.nodup_cons] using hnodup.of_cons)
          (by intro h; exact htp (by simp [h]))
          hs4cache
          (by simpa using Nat.le_of_succ_le_succ hfuel)
      refine ⟨s5, ?_, hf5, ?_, ?_, ?_, ?_, ?_⟩
      · rw [hrun]
        simp [foldChain]
      · rw [hmk5]
        simp [hs4, setYamlCache]
      · rw [hreads5]
        simp only [hs4, setYamlCache]
        simp [List.length_cons]
        omega
      · intro q d2 hqd
        rcases List.mem_cons.mp hqd with heq | hmem
        · rw [Prod.mk.injEq] at heq
          obtain ⟨rfl, rfl⟩ := heq
          rw [hother5 q hipnotrest htpip.symm]
          simp only [hs4, setYamlCache]
          rw [alist_aset_ne _ _ _ _ htpip]
          exact alist_aset_eq _ _ _
        · exact hdocs5 q d2 hmem
      · rw [htop5]
        simp [foldChain]
      · intro q hq hqtp
        have hqip : q ≠ ip := by
          intro h
          exact hq (by simp [h])
        have hqrest : q ∉ rest.map Prod.fst := by
          intro h
          exact hq (by simp [h])
        rw [hother5 q hqrest hqtp]
        simp only [hs4, setYamlCache]
        rw [alist_aset_ne _ _ _ _ (fun h => hqtp h.symm),
            alist_aset_ne _ _ _ _ (fun h => hqip h.symm),
            alist_aset_ne _ _ _ _ (fun h => hqip h.symm)]
        simp only [alist]
        rw [if_neg (fun h => hqip h.symm)]

/-- `readMkDocsYml` on a fresh state over an acyclic inheritance chain:
it returns the fold of the deep-default merge of the rewritten parents
over the (top-`site_dir`-rewritten) child, performs exactly one storage
read per document, and leaves the rewritten parents and the merged
accumulator in `readYaml`'s cache, the result also being memoized. -/
theorem readMkDocsYml_chain {files : List (String × Yaml)} {cwd p : String}
    {d0 : Yaml} {t0 : String} {docs : List (String × Yaml)}
    (hfile : alist files p = some d0)
    (hmap0 : isMap d0 = true)
    (hsiteok : fieldOk d0 "site_dir" = true)
    (hinh0 : getKey d0 "INHERIT" = some (.str t0))
    (ht0 : t0 ≠ "")
    (hchain : Chain files cwd (resolveParts cwd [dirname p, t0]) docs)
    (hnodup : (docs.map Prod.fst).Nodup)
    (hp : p ∉ docs.map Prod.fst)
    (hmapAll : ∀ pr ∈ docs, isMap pr.2 = true)
    (fuel : Nat) (hfuel : docs.length ≤ fuel) :
    ∃ s2 : FsState,
      readMkDocsYml fuel p cwd (initFsState files)
        = some (some (foldChain cwd (rwTop cwd p d0) docs), s2) ∧
      s2.reads = 1 + docs.length ∧
      (∀ q d2, (q, d2) ∈ docs → alist s2.yamlCache q = some (some (absD cwd q d2))) ∧
      alist s2.yamlCache p = some (some (foldChain cwd (rwTop cwd p d0) docs)) ∧
      alist s2.mkCache p = some (some (foldChain cwd (rwTop cwd p d0) docs)) := by
  have hIread : readYaml p (initFsState files) =
      (some d0, { files := files, yamlCache := [(p, some d0)], mkCache := [], reads := 1 }) := by
    unfold readYaml initFsState
    simp [alist, hfile]
  have hinhTop : getKey (rwTop cwd p d0) "INHERIT" = some (.str t0) := by
    rw [rwTop_getKey_ne cwd p "INHERIT" d0 (by decide)]
    exact hinh0
  -- the state before the loop
  set S2 : FsState :=
      { files := files, yamlCache := [(p, some (rwTop cwd p d0))], mkCache := [], reads := 1 }
      with hS2
  have hS2cache : ∀ q ∈ docs.map Prod.fst, alist S2.yamlCache q = none := by
    intro q hq
    have hqp : p ≠ q := by
      intro h
      exact hp (h ▸ hq)
    simp [hS2, alist, hqp]
  obtain ⟨s5, hrun, hf5, hmk5, hreads5, hdocs5, htop5, hother5⟩ :=
    mkLoop_chain hchain S2 (rwTop cwd p d0) fuel (by simp [hS2]) hmapAll hnodup hp
      hS2cache hfuel
  -- unfold the wrapper
  cases d0 with
  | map m0 =>
      refine ⟨cacheMk p (some (foldChain cwd (rwTop cwd p (.map m0)) docs)) s5, ?_, ?_, ?_, ?_, ?_⟩
      · unfold readMkDocsYml
        rw [show alist (initFsState files).mkCache p = none from rfl]
        rw [hIread]
        simp only
        rw [rewriteDir_rwTop cwd p (by rfl) hsiteok]
        simp only
        have hset : setYamlCache p (rwTop cwd p (.map m0))
            { files := files, yamlCache := [(p, some (.map m0))], mkCache := [], reads := 1 }
              = S2 := by
          simp [setYamlCache, hS2, aset]
        rw [hset, hinhTop]
        simp only
        rw [if_pos (show truthy (Yaml.str t0) = true from by simp [truthy, ht0])]
        rw [hrun]
      · simp [cacheMk, hreads5, hS2]
      · intro q d2 hqd
        simp only [cacheMk]
        exact hdocs5 q d2 hqd
      · simp only [cacheMk]
        exact htop5
      · simp [cacheMk, alist]
  | arr xs => simp [isMap] at hmap0
  | nil => simp [isMap] at hmap0
  | bool bb => simp [isMap] at hmap0
  | num nn => simp [isMap] at hmap0
  | str ss => simp [isMap] at hmap0

/-! ## C6: memoization of `readMkDocsYml` -/

/-- Every completed call leaves its outcome in the memo cache under the
input path string. -/
theorem readMkDocsYml_caches {fuel : Nat} {p cwd : String} {s : FsState}
    {r : Option Yaml} {s1 : FsState}
    (h : readMkDocsYml fuel p cwd s = some (r, s1)) :
    alist s1.mkCache p = some r := by
  unfold readMkDocsYml at h
  cases hmk : alist s.mkCache p with
  | some r0 =>
      rw [hmk] at h
      simp only [Option.some.injEq, Prod.mk.injEq] at h
      rw [← h.2, ← h.1]
      exact hmk
  | none =>
      rw [hmk] at h
      cases hY : readYaml p s with
      | mk y0 sr =>
          rw [hY] at h
          cases y0 with
          | none =>
              simp only [Option.some.injEq, Prod.mk.injEq] at h
              rw [← h.2, ← h.1]
              simp [cacheMk, alist]
          | some d0 =>
              simp only at h
              split at h
              · simp only [Option.some.injEq, Prod.mk.injEq] at h
                rw [← h.2, ← h.1]
                simp [cacheMk, alist]
              · cases hrw : rewriteDir cwd [cwd, dirname p] "site_dir" d0 with
                | none =>
                    rw [hrw] at h
                    simp only [Option.some.injEq, Prod.mk.injEq] at h
                    rw [← h.2, ← h.1]
                    simp [cacheMk, alist]
                | some d1 =>
                    rw [hrw] at h
                    simp only at h
                    cases hI : getKey d1 "INHERIT" with
                    | none =>
                        rw [hI] at h
                        simp only [Option.some.injEq, Prod.mk.injEq] at h
                        rw [← h.2, ← h.1]
                        simp [cacheMk, alist]
                    | some v =>
                        rw [hI] at h
                        simp only at h
                        by_cases htr : truthy v = true
                        · rw [if_pos htr] at h
                          split at h
                          · split at h
                            · exact absurd h (by simp)
                            · simp only [Option.some.injEq, Prod.mk.injEq] at h
                              rw [← h.2, ← h.1]
                              simp [cacheMk, alist]
                            · simp only [Option.some.injEq, Prod.mk.injEq] at h
                              rw [← h.2, ← h.1]
                              simp [cacheMk, alist]
                          · simp only [Option.some.injEq, Prod.mk.injEq] at h
                            rw [← h.2, ← h.1]
                            simp [cacheMk, alist]
                        · rw [if_neg htr] at h
                          simp only [Option.some.injEq, Prod.mk.injEq] at h
                          rw [← h.2, ← h.1]
                          simp [cacheMk, alist]

/-- **C6.** `readMkDocsYml` is memoized by the literal input path string:
once a call on path `p` has completed with result `r` and state `s1`, a
later call on the same string returns the same result with the state
unchanged — in particular `s1.reads` is unchanged, so no second storage
read happens — for any fuel. -/
theorem claim_C6 (fuel fuel2 : Nat) (p cwd : String) (s : FsState) (r : Option Yaml)
    (s1 : FsState) (h : readMkDocsYml fuel p cwd s = some (r, s1)) :
    readMkDocsYml fuel2 p cwd s1 = some (r, s1) := by
  have hc := readMkDocsYml_caches h
  unfold readMkDocsYml
  rw [hc]

/-- Witness for C6 on the concrete example: the second `load` of
`/d/child.yml` returns the memoized merged document and leaves the state
(including the read counter, still 2) untouched. -/
theorem claim_C6_witness :
    readMkDocsYml 7 "/d/child.yml" "/w" exS1 = some (some exMerged, exS1) ∧ exS1.reads = 2 :=
  ⟨claim_C6 2 7 "/d/child.yml" "/w" (initFsState exFiles) (some exMerged) exS1 (by rfl), rfl⟩

/-- **C1, counterexample.** On the specification's own example the claim
predicts `load('child.yml') = {a: 1, b: 3}`; the code returns the child's
`INHERIT` key as well (nothing ever strips it), so the result is
`{a: 1, INHERIT: '../parent.yml', b: 3}`. -/
theorem claim_C1_counterexample :
    (readMkDocsYml 2 "/d/child.yml" "/w" (initFsState exFiles)).map (fun pr => pr.1)
        = some (some exMerged) ∧
      exMerged ≠ .map (.cons "a" (.num 1) (.cons "b" (.num 3) .nil)) := by
  refine ⟨by rfl, ?_⟩
  intro hcon
  simp [exMerged] at hcon

/-- **C2, counterexample.** The claim says a declared `docs_dir` of the
top-level document is rewritten to an absolute path against the document's
own directory (`/proj/docs` here); the code only rewrites `site_dir` for
the top-level document, and `docs_dir` comes back as the relative string
`"docs"`. -/
theorem claim_C2_counterexample :
    (readMkDocsYml 1 "/proj/mkdocs.yml" "/w" (initFsState exDirFiles)).map
        (fun pr => pr.1.map (fun y => getKey y "docs_dir"))
      = some (some (some (.str "docs"))) ∧
    resolveParts "/w" ["/w", dirname "/proj/mkdocs.yml", "docs"] = "/proj/docs" ∧
    ("docs" : String) ≠ "/proj/docs" := by
  exact ⟨by rfl, by rfl, by decide⟩

/-- **C5, counterexample.** The claim says the child's array fully
replaces the parent's array; lodash's `defaultsDeep` merges arrays as
index-keyed objects, so `xs: [1]` inheriting `xs: [2, 3]` loads as
`xs: [1, 3]`, not `[1]`. -/
theorem claim_C5_counterexample :
    (readMkDocsYml 2 "/d/c.yml" "/w" (initFsState exArrFiles)).map
        (fun pr => pr.1.map (fun y => getKey y "xs"))
      = some (some (some (.arr (.cons (.num 1) (.cons (.num 3) .nil))))) ∧
    Yaml.arr (.cons (.num 1) (.cons (.num 3) .nil)) ≠ .arr (.cons (.num 1) .nil) := by
  refine ⟨by rfl, ?_⟩
  intro hcon
  simp at hcon

/-! ## C5: array merging -/

theorem ddArr_get : ∀ (c p : YList) (i : Nat),
    (ddArr c p).get i =
      match c.get i, p.get i with
      | some cv, some pv => some (defaultsDeep cv pv)
      | some cv, none => some cv
      | none, r => r
  | .nil, p, i => by
      cases hp : p.get i <;> simp [ddArr, YList.get, hp]
  | .cons v vs, .nil, i => by
      simp only [ddArr]
      cases hc : (YList.cons v vs).get i <;> simp [hc, YList.get]
  | .cons v vs, .cons pv pvs, i => by
      cases i with
      | zero => simp [ddArr, YList.get]
      | succ n =>
          simp only [ddArr, YList.get]
          exact ddArr_get vs pvs n

theorem ddArr_length : ∀ (c p : YList), (ddArr c p).length = max c.length p.length
  | .nil, p => by simp [ddArr, YList.length]
  | .cons v vs, .nil => by simp [ddArr, YList.length]
  | .cons v vs, .cons pv pvs => by
      simp only [ddArr, YList.length, ddArr_length vs pvs]
      omega

/-- **C5, amended.** In the merge performed by `load`, a child array does
not replace the parent's array: at a key where both sides hold arrays the
result holds their element-wise deep-default merge — the child's element
wins at each index (recursing when both elements are objects) and the
parent's extra trailing elements are appended, so the merged array has
the longer length. -/
theorem claim_C5 (c p : YMap) (k : String) (cs ps : YList)
    (hc : c.find k = some (.arr cs)) (hp : p.find k = some (.arr ps)) :
    getKey (defaultsDeep (.map c) (.map p)) k = some (.arr (ddArr cs ps)) ∧
    (∀ i : Nat, (ddArr cs ps).get i =
      match cs.get i, ps.get i with
      | some cv, some pv => some (defaultsDeep cv pv)
      | some cv, none => some cv
      | none, r => r) ∧
    (ddArr cs ps).length = max cs.length ps.length := by
  refine ⟨?_, fun i => ddArr_get cs ps i, ddArr_length cs ps⟩
  have hstep := @step_dd_present (.map c) k (.arr cs) hc (.map p)
  rw [show step (Yaml.map p) k = some (.arr ps) from hp] at hstep
  simp only at hstep
  obtain ⟨m2, hm2⟩ := dd_of_map c (Yaml.map p)
  rw [hm2] at hstep
  rw [hm2]
  exact hstep

/-- Witness for C5 at the concrete documents of the counterexample:
`xs: [1]` over `xs: [2, 3]` merges to `xs: [1, 3]`. -/
theorem claim_C5_witness :
    getKey (defaultsDeep exArrChild exArrParent) "xs"
      = some (.arr (.cons (.num 1) (.cons (.num 3) .nil))) :=
  (claim_C5
    (.cons "xs" (.arr (.cons (.num 1) .nil)) (.cons "INHERIT" (.str "../p.yml") .nil))
    (.cons "xs" (.arr (.cons (.num 2) (.cons (.num 3) .nil))) .nil)
    "xs" (.cons (.num 1) .nil) (.cons (.num 2) (.cons (.num 3) .nil))
    (by rfl) (by rfl)).1

/-! ## C2: directory rewrites -/

theorem rw1_getKey_eq {d : Yaml} {f t : String} (h : getKey d f = some (.str t))
    (ht : t ≠ "") (cwd q : String) :
    getKey (rw1 cwd q f d) f = some (.str (resolveParts cwd [dirname q, t])) := by
  unfold rw1
  rw [h]
  simp only [if_neg ht]
  cases d with
  | map m => simp [setKey, getKey, find_set_eq]
  | arr xs => simp [getKey] at h
  | nil => simp [getKey] at h
  | bool bb => simp [getKey] at h
  | num nn => simp [getKey] at h
  | str ss => simp [getKey] at h

theorem rwTop_getKey_eq {d : Yaml} {t : String} (h : getKey d "site_dir" = some (.str t))
    (ht : t ≠ "") (cwd p : String) :
    getKey (rwTop cwd p d) "site_dir"
      = some (.str (resolveParts cwd [cwd, dirname p, t])) := by
  unfold rwTop
  rw [h]
  simp only [if_neg ht]
  cases d with
  | map m => simp [setKey, getKey, find_set_eq]
  | arr xs => simp [getKey] at h
  | nil => simp [getKey] at h
  | bool bb => simp [getKey] at h
  | num nn => simp [getKey] at h
  | str ss => simp [getKey] at h

/-- **C2, amended.** `load` rewrites directory fields to absolute paths
before merging, but not uniformly: for the top-level document only
`site_dir` is rewritten (resolved against `resolve(cwd, dirname p)`),
and its `docs_dir` is left exactly as declared; for every inherited
parent both `site_dir` and `docs_dir` are rewritten, resolved against the
parent's own containing directory — and the merge consumes exactly these
rewritten documents.  The chain documents are required to be mappings:
a parent parsing to `null` rejects the load (see
`readMkDocsYml_nil_parent_rejects`), and a string parent's lodash
index-character fills lie outside the embedding. -/
theorem claim_C2 {files : List (String × Yaml)} {cwd p : String}
    {d0 : Yaml} {t0 : String} {docs : List (String × Yaml)}
    (hfile : alist files p = some d0)
    (hmap0 : isMap d0 = true)
    (hsiteok : fieldOk d0 "site_dir" = true)
    (hinh0 : getKey d0 "INHERIT" = some (.str t0))
    (ht0 : t0 ≠ "")
    (hchain : Chain files cwd (resolveParts cwd [dirname p, t0]) docs)
    (hnodup : (docs.map Prod.fst).Nodup)
    (hp : p ∉ docs.map Prod.fst)
    (hmapAll : ∀ pr ∈ docs, isMap pr.2 = true)
    (fuel : Nat) (hfuel : docs.length ≤ fuel) :
    (∃ s2, readMkDocsYml fuel p cwd (initFsState files)
        = some (some (foldChain cwd (rwTop cwd p d0) docs), s2)) ∧
    (∀ t1, getKey d0 "site_dir" = some (.str t1) → t1 ≠ "" →
      getKey (rwTop cwd p d0) "site_dir"
        = some (.str (resolveParts cwd [cwd, dirname p, t1]))) ∧
    getKey (rwTop cwd p d0) "docs_dir" = getKey d0 "docs_dir" ∧
    (∀ q d t1, (q, d) ∈ docs → getKey d "site_dir" = some (.str t1) → t1 ≠ "" →
      getKey (absD cwd q d) "site_dir"
        = some (.str (resolveParts cwd [dirname q, t1]))) ∧
    (∀ q d t1, (q, d) ∈ docs → getKey d "docs_dir" = some (.str t1) → t1 ≠ "" →
      getKey (absD cwd q d) "docs_dir"
        = some (.str (resolveParts cwd [dirname q, t1]))) := by
  obtain ⟨s2, hrun, -⟩ :=
    readMkDocsYml_chain hfile hmap0 hsiteok hinh0 ht0 hchain hnodup hp hmapAll fuel hfuel
  refine ⟨⟨s2, hrun⟩, ?_, ?_, ?_, ?_⟩
  · intro t1 h1 ht1
    exact rwTop_getKey_eq h1 ht1 cwd p
  · exact rwTop_getKey_ne cwd p "docs_dir" d0 (by decide)
  · intro q d t1 hmem h1 ht1
    unfold absD
    rw [rw1_getKey_ne cwd q "docs_dir" "site_dir" _ (by decide)]
    exact rw1_getKey_eq h1 ht1 cwd q
  · intro q d t1 hmem h1 ht1
    unfold absD
    have h2 : getKey (rw1 cwd q "site_dir" d) "docs_dir" = some (.str t1) := by
      rw [rw1_getKey_ne cwd q "site_dir" "docs_dir" d (by decide)]
      exact h1
    exact rw1_getKey_eq h2 ht1 cwd q

/-- Witness for C2 on a concrete chain: the top-level `site_dir`
becomes `/d/site`, the top-level `docs_dir` stays `docsrel`, and the
parent's `docs_dir` becomes `/pd` (resolved against the parent's own
directory). -/
theorem claim_C2_witness :
    getKey (rwTop "/w" "/d/c2.yml" exDir2Child) "site_dir" = some (.str "/d/site") ∧
    getKey (rwTop "/w" "/d/c2.yml" exDir2Child) "docs_dir" = some (.str "docsrel") ∧
    getKey (absD "/w" "/par.yml" exDir2Parent) "docs_dir" = some (.str "/pd") := by
  have hch : Chain exDir2Files "/w"
      (resolveParts "/w" [dirname "/d/c2.yml", "../par.yml"]) [("/par.yml", exDir2Parent)] := by
    rw [show resolveParts "/w" [dirname "/d/c2.yml", "../par.yml"] = "/par.yml" from rfl]
    exact Chain.last _ _ (by rfl) (by rfl) (by rfl)
  have h := @claim_C2 exDir2Files "/w" "/d/c2.yml" exDir2Child "../par.yml"
    [("/par.yml", exDir2Parent)]
    (by rfl) (by rfl) (by rfl) (by rfl) (by decide) hch (by simp) (by simp)
    (by intro pr hpr; simp only [List.mem_singleton] at hpr; subst hpr; rfl) 1 (by simp)
  refine ⟨?_, ?_, ?_⟩
  · have := h.2.1 "site" (by rfl) (by decide)
    rw [this]
    rfl
  · have := h.2.2.1
    rw [this]
    rfl
  · have := h.2.2.2.2 "/par.yml" exDir2Parent "pd" (by simp) (by rfl) (by decide)
    rw [this]
    rfl

/-! ## C1: deep-default merge over the chain -/

theorem foldChain_eq (cwd : String) (acc : Yaml) (docs : List (String × Yaml)) :
    foldChain cwd acc docs
      = (docs.map (fun pr => absD cwd pr.1 pr.2)).foldl defaultsDeep acc := by
  unfold foldChain
  rw [List.foldl_map]

/-- **C1, amended.** The inheritance merge of `load` is a deep-default
merge: a scalar present in the (site-dir-rewritten) child at any key path
is never overwritten by a parent; a path clear in the child and in every
nearer parent is filled with the scalar held by the nearest rewritten
parent that has it.  On the specification's concrete example the result
is `{a: 1, INHERIT: '../parent.yml', b: 3}` — the child's `INHERIT` key is
not stripped, otherwise as predicted.  The chain documents are required
to be mappings: a parent parsing to `null` rejects the load (see
`readMkDocsYml_nil_parent_rejects`), and a string parent's lodash
index-character fills lie outside the embedding. -/
theorem claim_C1 {files : List (String × Yaml)} {cwd p : String}
    {d0 : Yaml} {t0 : String} {docs : List (String × Yaml)}
    (hfile : alist files p = some d0)
    (hmap0 : isMap d0 = true)
    (hsiteok : fieldOk d0 "site_dir" = true)
    (hinh0 : getKey d0 "INHERIT" = some (.str t0))
    (ht0 : t0 ≠ "")
    (hchain : Chain files cwd (resolveParts cwd [dirname p, t0]) docs)
    (hnodup : (docs.map Prod.fst).Nodup)
    (hp : p ∉ docs.map Prod.fst)
    (hmapAll : ∀ pr ∈ docs, isMap pr.2 = true)
    (fuel : Nat) (hfuel : docs.length ≤ fuel) :
    (∃ s2, readMkDocsYml fuel p cwd (initFsState files)
        = some (some (foldChain cwd (rwTop cwd p d0) docs), s2)) ∧
    (∀ (ks : List String) (v : Yaml), getPath (rwTop cwd p d0) ks = some v → Scalar v →
      getPath (foldChain cwd (rwTop cwd p d0) docs) ks = some v) ∧
    (∀ (ks : List String) (i : Nat) (qi : String) (di v : Yaml),
      pathClear (rwTop cwd p d0) ks →
      (∀ (j : Nat) (qj : String) (dj : Yaml), j < i → docs[j]? = some (qj, dj) →
        pathClear (absD cwd qj dj) ks) →
      docs[i]? = some (qi, di) → getPath (absD cwd qi di) ks = some v → Scalar v →
      getPath (foldChain cwd (rwTop cwd p d0) docs) ks = some v) ∧
    (readMkDocsYml 2 "/d/child.yml" "/w" (initFsState exFiles)).map (fun pr => pr.1)
      = some (some exMerged) := by
  obtain ⟨s2, hrun, -⟩ :=
    readMkDocsYml_chain hfile hmap0 hsiteok hinh0 ht0 hchain hnodup hp hmapAll fuel hfuel
  refine ⟨⟨s2, hrun⟩, ?_, ?_, by rfl⟩
  · intro ks v h hv
    rw [foldChain_eq]
    exact foldl_keeps_scalar _ _ ks v h hv
  · intro ks i qi di v hclear hnear hget hdi hv
    rw [foldChain_eq]
    refine foldl_clear_fill _ _ ks i (absD cwd qi di) v hclear ?_ ?_ hdi hv
    · intro j dj hj hjget
      rw [List.getElem?_map] at hjget
      cases hdq : docs[j]? with
      | none => rw [hdq] at hjget; exact absurd hjget (by simp)
      | some pr =>
          rw [hdq] at hjget
          simp only [Option.map_some', Option.some.injEq] at hjget
          rw [← hjget]
          exact hnear j pr.1 pr.2 hj (by rw [hdq])
    · rw [List.getElem?_map, hget]
      rfl

/-- Witness for C1 on the example chain: the child's `a: 1` survives,
and `b` is filled from the parent. -/
theorem claim_C1_witness :
    getPath (foldChain "/w" (rwTop "/w" "/d/child.yml" exChildDoc)
        [("/parent.yml", exParentDoc)]) ["a"] = some (.num 1) ∧
    getPath (foldChain "/w" (rwTop "/w" "/d/child.yml" exChildDoc)
        [("/parent.yml", exParentDoc)]) ["b"] = some (.num 3) := by
  have hch : Chain exFiles "/w"
      (resolveParts "/w" [dirname "/d/child.yml", "../parent.yml"])
      [("/parent.yml", exParentDoc)] := by
    rw [show resolveParts "/w" [dirname "/d/child.yml", "../parent.yml"] = "/parent.yml"
      from rfl]
    exact Chain.last _ _ (by rfl) (by rfl) (by rfl)
  have h := @claim_C1 exFiles "/w" "/d/child.yml" exChildDoc "../parent.yml"
    [("/parent.yml", exParentDoc)]
    (by rfl) (by rfl) (by rfl) (by rfl) (by decide) hch (by simp) (by simp)
    (by intro pr hpr; simp only [List.mem_singleton] at hpr; subst hpr; rfl) 1 (by simp)
  constructor
  · exact h.2.1 ["a"] (.num 1) (by rfl) (by rfl)
  · refine h.2.2.1 ["b"] 0 "/parent.yml" exParentDoc (.num 3) ?_ ?_ (by rfl) (by rfl) (by rfl)
    · constructor
      · rfl
      · intro q k r hks w hw
        cases q with
        | nil =>
            simp only [getPath, Option.some.injEq] at hw
            rw [← hw]
            rfl
        | cons k0 q2 => simp at hks
    · intro j qj dj hj _
      omega

/-! ## C4: termination and chain coverage -/

theorem wkRow_set : ∀ (m : YMap) (f : String) (v : Yaml),
    (decIdx f).isNone = true → wellKeyed v = true → wkRow m = true →
    wkRow (m.set f v) = true
  | .nil, f, v, hf, hv, _ => by simp [YMap.set, wkRow, hf, hv]
  | .cons k0 w rest, f, v, hf, hv, h => by
      simp only [wkRow, Bool.and_eq_true] at h
      by_cases he : k0 = f
      · subst he
        simp [YMap.set, wkRow, h.1.1, hv, h.2]
      · simp only [YMap.set, if_neg he, wkRow, Bool.and_eq_true]
        exact ⟨⟨h.1.1, h.1.2⟩, wkRow_set rest f v hf hv h.2⟩

theorem wellKeyed_setKey {d : Yaml} {f : String} {v : Yaml}
    (hf : (decIdx f).isNone = true) (hv : wellKeyed v = true) (h : wellKeyed d = true) :
    wellKeyed (setKey d f v) = true := by
  cases d with
  | map m => exact wkRow_set m f v hf hv (by simpa [wellKeyed] using h)
  | arr xs => exact h
  | nil => exact h
  | bool bb => exact h
  | num nn => exact h
  | str ss => exact h

theorem wellKeyed_rw1 {d : Yaml} (cwd q f : String) (hf : (decIdx f).isNone = true)
    (h : wellKeyed d = true) : wellKeyed (rw1 cwd q f d) = true := by
  cases hk : getKey d f with
  | none =>
      unfold rw1
      rw [hk]
      exact h
  | some v =>
      cases v with
      | str t =>
          by_cases ht : t = ""
          · unfold rw1
            rw [hk]
            simp only [if_pos ht]
            exact h
          · unfold rw1
            rw [hk]
            simp only [if_neg ht]
            exact wellKeyed_setKey hf (by rfl) h
      | nil => unfold rw1; rw [hk]; exact h
      | bool bb => unfold rw1; rw [hk]; exact h
      | num nn => unfold rw1; rw [hk]; exact h
      | arr xs => unfold rw1; rw [hk]; exact h
      | map m => unfold rw1; rw [hk]; exact h

theorem wellKeyed_rwTop {d : Yaml} (cwd p : String) (h : wellKeyed d = true) :
    wellKeyed (rwTop cwd p d) = true := by
  cases hk : getKey d "site_dir" with
  | none =>
      unfold rwTop
      rw [hk]
      exact h
  | some v =>
      cases v with
      | str t =>
          by_cases ht : t = ""
          · unfold rwTop
            rw [hk]
            simp only [if_pos ht]
            exact h
          · unfold rwTop
            rw [hk]
            simp only [if_neg ht]
            exact wellKeyed_setKey (by decide) (by rfl) h
      | nil => unfold rwTop; rw [hk]; exact h
      | bool bb => unfold rwTop; rw [hk]; exact h
      | num nn => unfold rwTop; rw [hk]; exact h
      | arr xs => unfold rwTop; rw [hk]; exact h
      | map m => unfold rwTop; rw [hk]; exact h

theorem wellKeyed_absD {d : Yaml} (cwd q : String) (h : wellKeyed d = true) :
    wellKeyed (absD cwd q d) = true :=
  wellKeyed_rw1 cwd q "docs_dir" (by decide)
    (wellKeyed_rw1 cwd q "site_dir" (by decide) h)

theorem isMap_setKey {d : Yaml} (h : isMap d = true) (f : String) (v : Yaml) :
    isMap (setKey d f v) = true := by
  cases d <;> simp_all [setKey, isMap]

theorem isMap_rw1 {d : Yaml} (cwd q f : String) (h : isMap d = true) :
    isMap (rw1 cwd q f d) = true := by
  cases hk : getKey d f with
  | none => unfold rw1; rw [hk]; exact h
  | some v =>
      cases v with
      | str t =>
          by_cases ht : t = ""
          · unfold rw1; rw [hk]; simp only [if_pos ht]; exact h
          · unfold rw1; rw [hk]; simp only [if_neg ht]
            exact isMap_setKey h f _
      | nil => unfold rw1; rw [hk]; exact h
      | bool bb => unfold rw1; rw [hk]; exact h
      | num nn => unfold rw1; rw [hk]; exact h
      | arr xs => unfold rw1; rw [hk]; exact h
      | map m => unfold rw1; rw [hk]; exact h

theorem isMap_rwTop {d : Yaml} (cwd p : String) (h : isMap d = true) :
    isMap (rwTop cwd p d) = true := by
  cases hk : getKey d "site_dir" with
  | none => unfold rwTop; rw [hk]; exact h
  | some v =>
      cases v with
      | str t =>
          by_cases ht : t = ""
          · unfold rwTop; rw [hk]; simp only [if_pos ht]; exact h
          · unfold rwTop; rw [hk]; simp only [if_neg ht]
            exact isMap_setKey h "site_dir" _
      | nil => unfold rwTop; rw [hk]; exact h
      | bool bb => unfold rwTop; rw [hk]; exact h
      | num nn => unfold rwTop; rw [hk]; exact h
      | arr xs => unfold rwTop; rw [hk]; exact h
      | map m => unfold rwTop; rw [hk]; exact h

theorem isMap_absD {d : Yaml} (cwd q : String) (h : isMap d = true) :
    isMap (absD cwd q d) = true :=
  isMap_rw1 cwd q "docs_dir" (isMap_rw1 cwd q "site_dir" h)

theorem find_set_presence : ∀ (m : YMap) (f : String) (v : Yaml),
    ((m.set f v).find f).isSome = true
  | .nil, f, v => by simp [YMap.set, YMap.find]
  | .cons k0 w rest, f, v => by
      by_cases he : k0 = f
      · simp [YMap.set, YMap.find, he]
      · simp [YMap.set, YMap.find, he, find_set_presence rest f v]

theorem rw1_presence (cwd q f g : String) (d : Yaml) :
    (getKey (rw1 cwd q f d) g).isSome = (getKey d g).isSome := by
  by_cases hfg : f = g
  · subst hfg
    cases hk : getKey d f with
    | none => unfold rw1; rw [hk]; simp [hk]
    | some v =>
        cases v with
        | str t =>
            by_cases ht : t = ""
            · unfold rw1; rw [hk]; simp only [if_pos ht]; simp [hk]
            · unfold rw1
              rw [hk]
              simp only [if_neg ht]
              cases d with
              | map m =>
                  show ((m.set f _).find f).isSome = _
                  rw [find_set_presence]
                  rfl
              | arr xs => simp [getKey] at hk
              | nil => simp [getKey] at hk
              | bool bb => simp [getKey] at hk
              | num nn => simp [getKey] at hk
              | str ss => simp [getKey] at hk
        | nil => unfold rw1; rw [hk]; simp [hk]
        | bool bb => unfold rw1; rw [hk]; simp [hk]
        | num nn => unfold rw1; rw [hk]; simp [hk]
        | arr xs => unfold rw1; rw [hk]; simp [hk]
        | map m => unfold rw1; rw [hk]; simp [hk]
  · rw [rw1_getKey_ne cwd q f g d hfg]

theorem rwTop_presence (cwd p g : String) (d : Yaml) :
    (getKey (rwTop cwd p d) g).isSome = (getKey d g).isSome := by
  by_cases hfg : "site_dir" = g
  · subst hfg
    cases hk : getKey d "site_dir" with
    | none => unfold rwTop; rw [hk]; simp [hk]
    | some v =>
        cases v with
        | str t =>
            by_cases ht : t = ""
            · unfold rwTop; rw [hk]; simp only [if_pos ht]; simp [hk]
            · unfold rwTop
              rw [hk]
              simp only [if_neg ht]
              cases d with
              | map m =>
                  show ((m.set "site_dir" _).find "site_dir").isSome = _
                  rw [find_set_presence]
                  rfl
              | arr xs => simp [getKey] at hk
              | nil => simp [getKey] at hk
              | bool bb => simp [getKey] at hk
              | num nn => simp [getKey] at hk
              | str ss => simp [getKey] at hk
        | nil => unfold rwTop; rw [hk]; simp [hk]
        | bool bb => unfold rwTop; rw [hk]; simp [hk]
        | num nn => unfold rwTop; rw [hk]; simp [hk]
        | arr xs => unfold rwTop; rw [hk]; simp [hk]
        | map m => unfold rwTop; rw [hk]; simp [hk]
  · rw [rwTop_getKey_ne cwd p g d hfg]

theorem absD_presence (cwd q g : String) (d : Yaml) :
    (getKey (absD cwd q d) g).isSome = (getKey d g).isSome := by
  unfold absD
  rw [rw1_presence, rw1_presence]

theorem step_eq_getKey_of_isMap {y : Yaml} (h : isMap y = true) (k : String) :
    step y k = getKey y k := by
  cases y <;> simp_all [isMap, step, getKey]

/-- **C4.** Over an inheritance chain with no cycle (`Chain` has only
finite, repetition-free derivations), `load` terminates: with fuel at
least the chain length `readMkDocsYml` returns the merged document.  The
merge contains every top-level key of the starting document and of every
document in the chain, and every scalar at any key path comes from the
starting document or, failing that, from the nearest document of the
chain that defines the path, every nearer document lacking it. -/
theorem claim_C4 {files : List (String × Yaml)} {cwd p : String}
    {d0 : Yaml} {t0 : String} {docs : List (String × Yaml)}
    (hfile : alist files p = some d0)
    (hmap0 : isMap d0 = true)
    (hsiteok : fieldOk d0 "site_dir" = true)
    (hinh0 : getKey d0 "INHERIT" = some (.str t0))
    (ht0 : t0 ≠ "")
    (hchain : Chain files cwd (resolveParts cwd [dirname p, t0]) docs)
    (hnodup : (docs.map Prod.fst).Nodup)
    (hp : p ∉ docs.map Prod.fst)
    (hmapAll : ∀ pr ∈ docs, isMap pr.2 = true)
    (hwkAll : ∀ pr ∈ docs, wellKeyed pr.2 = true)
    (fuel : Nat) (hfuel : docs.length ≤ fuel) :
    (∃ s2, readMkDocsYml fuel p cwd (initFsState files)
        = some (some (foldChain cwd (rwTop cwd p d0) docs), s2)) ∧
    (∀ k : String,
      ((getKey d0 k).isSome = true ∨ ∃ pr ∈ docs, (getKey pr.2 k).isSome = true) →
      (getKey (foldChain cwd (rwTop cwd p d0) docs) k).isSome = true) ∧
    (∀ (ks : List String) (v : Yaml),
      getPath (foldChain cwd (rwTop cwd p d0) docs) ks = some v → Scalar v →
      getPath (rwTop cwd p d0) ks = some v ∨
        (getPath (rwTop cwd p d0) ks = none ∧
         ∃ (i : Nat) (pr : String × Yaml), docs[i]? = some pr ∧
           getPath (absD cwd pr.1 pr.2) ks = some v ∧
           ∀ (j : Nat) (qr : String × Yaml), j < i → docs[j]? = some qr →
             getPath (absD cwd qr.1 qr.2) ks = none)) := by
  obtain ⟨s2, hrun, -⟩ :=
    readMkDocsYml_chain hfile hmap0 hsiteok hinh0 ht0 hchain hnodup hp hmapAll fuel hfuel
  have hmapsAll : ∀ d ∈ docs.map (fun pr => absD cwd pr.1 pr.2), isMap d = true := by
    intro d hd
    rw [List.mem_map] at hd
    obtain ⟨pr, hpr, rfl⟩ := hd
    exact isMap_absD cwd pr.1 (hmapAll pr hpr)
  have hmapFold : isMap (foldChain cwd (rwTop cwd p d0) docs) = true := by
    rw [foldChain_eq]
    exact foldl_isMap _ _ (isMap_rwTop cwd p hmap0)
  refine ⟨⟨s2, hrun⟩, ?_, ?_⟩
  · intro k hcov
    rw [← step_eq_getKey_of_isMap hmapFold k, foldChain_eq]
    apply foldl_cover _ _ k (isMap_rwTop cwd p hmap0) hmapsAll
    rcases hcov with h0 | ⟨pr, hpr, hk⟩
    · left
      rw [step_eq_getKey_of_isMap (isMap_rwTop cwd p hmap0) k, rwTop_presence]
      exact h0
    · right
      refine ⟨absD cwd pr.1 pr.2, List.mem_map_of_mem _ hpr, ?_⟩
      rw [step_eq_getKey_of_isMap (isMap_absD cwd pr.1 (hmapAll pr hpr)) k, absD_presence]
      exact hk
  · intro ks v hres hv
    rw [foldChain_eq] at hres
    have hwkList : ∀ d ∈ docs.map (fun pr => absD cwd pr.1 pr.2), wellKeyed d = true := by
      intro d hd
      rw [List.mem_map] at hd
      obtain ⟨pr, hpr, rfl⟩ := hd
      exact wellKeyed_absD cwd pr.1 (hwkAll pr hpr)
    rcases foldl_scalar_origin _ _ ks v hwkList hres hv with
      h1 | ⟨hn, -, i, di, hget, hdi, hprev⟩
    · exact Or.inl h1
    · right
      refine ⟨hn, ?_⟩
      rw [List.getElem?_map] at hget
      cases hdq : docs[i]? with
      | none => rw [hdq] at hget; exact absurd hget (by simp)
      | some pr =>
          rw [hdq] at hget
          simp only [Option.map_some', Option.some.injEq] at hget
          refine ⟨i, pr, hdq, by rw [hget]; exact hdi, ?_⟩
          intro j qr hj hjq
          exact hprev j (absD cwd qr.1 qr.2) hj (by rw [List.getElem?_map, hjq]; rfl)

/-- Witness for C4 on the example chain: the loader terminates with the
merged document, and the parent's key `b`, absent from the child, is
present in the result. -/
theorem claim_C4_witness :
    (∃ s2, readMkDocsYml 1 "/d/child.yml" "/w" (initFsState exFiles)
        = some (some (foldChain "/w" (rwTop "/w" "/d/child.yml" exChildDoc)
            [("/parent.yml", exParentDoc)]), s2)) ∧
    (getKey (foldChain "/w" (rwTop "/w" "/d/child.yml" exChildDoc)
        [("/parent.yml", exParentDoc)]) "b").isSome = true := by
  have hch : Chain exFiles "/w"
      (resolveParts "/w" [dirname "/d/child.yml", "../parent.yml"])
      [("/parent.yml", exParentDoc)] := by
    rw [show resolveParts "/w" [dirname "/d/child.yml", "../parent.yml"] = "/parent.yml"
      from rfl]
    exact Chain.last _ _ (by rfl) (by rfl) (by rfl)
  have h := @claim_C4 exFiles "/w" "/d/child.yml" exChildDoc "../parent.yml"
    [("/parent.yml", exParentDoc)]
    (by rfl) (by rfl) (by rfl) (by rfl) (by decide) hch (by simp) (by simp)
    (by intro pr hpr; simp only [List.mem_singleton] at hpr; subst hpr; rfl)
    (by intro pr hpr; simp only [List.mem_singleton] at hpr; subst hpr; rfl)
    1 (by simp)
  exact ⟨h.1, h.2.1 "b" (Or.inr ⟨("/parent.yml", exParentDoc), by simp, by rfl⟩)⟩

/-! ## C10: the merge mutates the objects in readYaml's cache -/

theorem readYaml_hit {q : String} {s : FsState} {r : Option Yaml}
    (h : alist s.yamlCache q = some r) : readYaml q s = (r, s) := by
  unfold readYaml
  rw [h]

/-- **C10.** The rewrites and the merge act on the objects held in
`readYaml`'s memoization cache: once `readMkDocsYml p` completes, a later
`readYaml q` for any parent path `q` of the chain returns that parent
with `site_dir` and `docs_dir` already rewritten to absolute paths (and
no further storage read), and a later `readYaml p` returns the fully
merged top document, not the raw parse of either file.  The chain
documents are required to be mappings: a parent parsing to `null`
rejects the load (see `readMkDocsYml_nil_parent_rejects`), and a string
parent's lodash index-character fills lie outside the embedding. -/
theorem claim_C10 {files : List (String × Yaml)} {cwd p : String}
    {d0 : Yaml} {t0 : String} {docs : List (String × Yaml)}
    (hfile : alist files p = some d0)
    (hmap0 : isMap d0 = true)
    (hsiteok : fieldOk d0 "site_dir" = true)
    (hinh0 : getKey d0 "INHERIT" = some (.str t0))
    (ht0 : t0 ≠ "")
    (hchain : Chain files cwd (resolveParts cwd [dirname p, t0]) docs)
    (hnodup : (docs.map Prod.fst).Nodup)
    (hp : p ∉ docs.map Prod.fst)
    (hmapAll : ∀ pr ∈ docs, isMap pr.2 = true)
    (fuel : Nat) (hfuel : docs.length ≤ fuel) :
    ∃ s2 : FsState,
      readMkDocsYml fuel p cwd (initFsState files)
        = some (some (foldChain cwd (rwTop cwd p d0) docs), s2) ∧
      (∀ q d2, (q, d2) ∈ docs → readYaml q s2 = (some (absD cwd q d2), s2)) ∧
      readYaml p s2 = (some (foldChain cwd (rwTop cwd p d0) docs), s2) := by
  obtain ⟨s2, hrun, hreads, hdocs, htop, hmk⟩ :=
    readMkDocsYml_chain hfile hmap0 hsiteok hinh0 ht0 hchain hnodup hp hmapAll fuel hfuel
  exact ⟨s2, hrun, fun q d2 hq => readYaml_hit (hdocs q d2 hq), readYaml_hit htop⟩

/-- Witness for C10 on the example chain: after the load, `readYaml` on
the parent path returns the (rewrite-identity here) parent object, and on
the child path returns the merged document, with no state change. -/
theorem claim_C10_witness :
    ∃ s2 : FsState,
      readMkDocsYml 1 "/d/child.yml" "/w" (initFsState exFiles)
        = some (some (foldChain "/w" (rwTop "/w" "/d/child.yml" exChildDoc)
            [("/parent.yml", exParentDoc)]), s2) ∧
      readYaml "/parent.yml" s2 = (some (absD "/w" "/parent.yml" exParentDoc), s2) ∧
      readYaml "/d/child.yml" s2
        = (some (foldChain "/w" (rwTop "/w" "/d/child.yml" exChildDoc)
            [("/parent.yml", exParentDoc)]), s2) := by
  have hch : Chain exFiles "/w"
      (resolveParts "/w" [dirname "/d/child.yml", "../parent.yml"])
      [("/parent.yml", exParentDoc)] := by
    rw [show resolveParts "/w" [dirname "/d/child.yml", "../parent.yml"] = "/parent.yml"
      from rfl]
    exact Chain.last _ _ (by rfl) (by rfl) (by rfl)
  obtain ⟨s2, hrun, hq, hp2⟩ := @claim_C10 exFiles "/w" "/d/child.yml" exChildDoc
    "../parent.yml" [("/parent.yml", exParentDoc)]
    (by rfl) (by rfl) (by rfl) (by rfl) (by decide) hch (by simp) (by simp)
    (by intro pr hpr; simp only [List.mem_singleton] at hpr; subst hpr; rfl) 1 (by simp)
  exact ⟨s2, hrun, hq "/parent.yml" exParentDoc (by simp), hp2⟩

end Appium
